import Mathlib

/-!
Verification of the xdg-desktop library core against its specification.

The Rust sources are embedded shallowly:
* byte buffers become `List Char` (all delimiters involved are ASCII),
* `String` fields stay `String`,
* `HashMap` becomes an association list with insert-replace semantics
  (`listInsert` / `List.lookup`); iteration order of a map is never used by
  the embedded code paths,
* `BTreeMap<usize, _>` becomes a `List (Nat × _)` sorted by key (sortedness
  is carried as a hypothesis where a theorem needs it),
* filesystem probes (`is_file`, `is_symlink`, directory listings) become
  explicit function / list parameters,
* a Rust `panic!` (e.g. `Option::unwrap` on `None`, out-of-bounds index)
  becomes `none` in an `Option` result.
-/

/-! ## Generic association-list helpers (model of HashMap insert) -/

/-- HashMap::insert — replace the binding if the key is present, else append. -/
def listInsert {α : Type} (k : String) (v : α) : List (String × α) → List (String × α)
  | [] => [(k, v)]
  | (k2, v2) :: rest => if k2 = k then (k, v) :: rest else (k2, v2) :: listInsert k v rest

/-! ## MIME glob matcher — src/mime_glob.rs -/

/-- Shell-style glob matching for the metacharacters `*` and `?`, the subset
of `glob::Pattern::matches` the glob database uses.  Fuel-driven so that the
definition computes; `patternLen + textLen + 1` fuel always suffices because
every recursive call shrinks `pattern.length + text.length`. -/
def globMatchFuel : Nat → List Char → List Char → Bool
  | 0, _, _ => false
  | _ + 1, [], [] => true
  | _ + 1, [], _ :: _ => false
  | fuel + 1, '*' :: ps, cs =>
      globMatchFuel fuel ps cs ||
        (match cs with
         | [] => false
         | _ :: cs2 => globMatchFuel fuel ('*' :: ps) cs2)
  | _ + 1, _ :: _, [] => false
  | fuel + 1, p :: ps, c :: cs =>
      (p = '?' || p = c) && globMatchFuel fuel ps cs

/-- glob::Pattern, kept as its source text. -/
abbrev GlobPattern := List Char

/-- glob::Pattern::matches. -/
def GlobPattern.matches (p : GlobPattern) (s : String) : Bool :=
  globMatchFuel (List.length p + s.data.length + 1) p s.data

/-- MIMEGlobItem { score, mime, pattern }. -/
structure MIMEGlobItem where
  score : Nat
  mime : String
  pattern : Option GlobPattern
deriving DecidableEq

/-- MIMEGlobIndex { glob_patterns, glob_suffix_index }. -/
structure MIMEGlobIndex where
  glob_patterns : List MIMEGlobItem
  glob_suffix_index : List (String × MIMEGlobItem)

/-- The suffix-table test in MIMEGlobIndex::new:
`ptn.chars().nth(0) == Some('*') && ptn[1..].chars().all(|ch| ch != '*' && ch != '?')`. -/
def isSuffixGlob (ptn : String) : Bool :=
  ptn.data.head? = some '*' &&
    ptn.data.tail.all (fun ch => ch ≠ '*' && ch ≠ '?')

/-- MIMEGlobIndex::new, with the parsed `score:mime:pattern` records of the
glob database supplied as input (the file read and `parse_mime_glob` loop are
I/O; each surviving record reaches the classification callback in file
order). -/
def MIMEGlobIndex.new (records : List (Nat × String × String)) : MIMEGlobIndex :=
  records.foldl
    (fun idx r =>
      let score := r.1
      let mime := r.2.1
      let ptn := r.2.2
      if isSuffixGlob ptn then
        { idx with glob_suffix_index :=
            listInsert (ptn.drop 1) ⟨score, mime, none⟩ idx.glob_suffix_index }
      else
        { idx with glob_patterns :=
            idx.glob_patterns ++ [⟨score, mime, some ptn.data⟩] })
    ⟨[], []⟩

/-- filename.rfind('.') followed by `&filename[extpos..]` — the substring of
the filename from its last dot, dot included. -/
def suffixFromLastDot (filename : String) : Option String :=
  match filename.data.reverse.findIdx? (fun c => c = '.') with
  | none => none
  | some i => some ⟨filename.data.drop (filename.data.length - i - 1)⟩

/-- MIMEGlobIndex::match_filename_suffix. -/
def MIMEGlobIndex.match_filename_suffix (idx : MIMEGlobIndex) (filename : String) :
    Option MIMEGlobItem :=
  match suffixFromLastDot filename with
  | some suffix => List.lookup suffix idx.glob_suffix_index
  | none => none

/-- The pattern test inside match_filename_pattern;
`glob_item.pattern.as_ref().unwrap().matches(filename)`.  The `unwrap` cannot
panic on an index built by `new`, where every list entry carries `some`
pattern; `none` is mapped to a vacuous `false`. -/
def MIMEGlobItem.patternMatches (item : MIMEGlobItem) (filename : String) : Bool :=
  match item.pattern with
  | some p => p.matches filename
  | none => false

/-- MIMEGlobIndex::match_filename_pattern: first pattern-list entry whose
score has not dropped below `min_score` and whose pattern matches. -/
def matchFilenamePatternGo (filename : String) (min_score : Nat) :
    List MIMEGlobItem → Option MIMEGlobItem
  | [] => none
  | item :: rest =>
    if item.score < min_score then none
    else if item.patternMatches filename then some item
    else matchFilenamePatternGo filename min_score rest

/-- MIMEGlobIndex::match_filename_pattern. -/
def MIMEGlobIndex.match_filename_pattern (idx : MIMEGlobIndex) (filename : String)
    (min_score : Nat) : Option MIMEGlobItem :=
  matchFilenamePatternGo filename min_score idx.glob_patterns

/-- MIMEGlobIndex::match_filename. -/
def MIMEGlobIndex.match_filename (idx : MIMEGlobIndex) (filename : String) :
    Option String :=
  let suffix_match := idx.match_filename_suffix filename
  let suffix_score := (suffix_match.map (·.score)).getD 0
  let pattern_match := idx.match_filename_pattern filename suffix_score
  let pattern_score := (pattern_match.map (·.score)).getD 0
  if suffix_score > pattern_score then
    suffix_match.map (·.mime)
  else
    pattern_match.map (·.mime)

/-- The two-record database of the specification's tie-break scenario:
a suffix entry `*.tar.gz → application/x-tar-gz` at score 50 and a pattern
entry `*.tar.* → application/x-generic` at score 50. -/
def tarGlobIndex : MIMEGlobIndex :=
  MIMEGlobIndex.new
    [(50, "application/x-tar-gz", "*.tar.gz"), (50, "application/x-generic", "*.tar.*")]

/-! ## Desktop Entry tokenizer — src/desktop_parser.rs -/

/-- The three visitor events of DesktopParserCallback, reified as a trace so
that per-file parsers can be modelled as folds over the event list.  The
booleans the menu-side callbacks return are ignored by `DesktopFile::parse`,
so they do not appear here. -/
inductive DEvent where
  | sec (name : List Char)
  | key (name : List Char)
  | value (v : List Char)
deriving DecidableEq

/-- skip_whitespace: drop to the first non-space byte; when every byte is a
space, `iter().position` finds nothing and the whole slice is returned. -/
def skip_whitespace (slice : List Char) : List Char :=
  if slice.all (fun ch => ch = ' ') then slice
  else slice.dropWhile (fun ch => ch = ' ')

/-- find_next_char: scan for `x`, giving up at the first newline.  Returns
the suffix starting at the found byte together with its offset, exactly as
the source returns `(&slice[pos..], pos)`. -/
def find_next_char (x : Char) : List Char → Option (List Char × Nat)
  | [] => none
  | c :: rest =>
    if c = x then some (c :: rest, 0)
    else if c = '\n' then none
    else (find_next_char x rest).map (fun r => (r.1, r.2 + 1))

/-- The body of DesktopFile::parse.  Fuel counts loop iterations: every
iteration consumes at least one byte, so `slice.length + 1` fuel always
suffices and the `0` case is unreachable from `DesktopFile.parse`.  A `none`
result is a panic: the source calls `.unwrap()` on each `find_next_char`
result except the final end-of-file value. -/
def parseGo : Nat → List Char → Option (List DEvent)
  | 0, _ => none
  | fuel + 1, slice =>
    if slice.length = 0 then some []
    else
      match skip_whitespace slice with
      | [] => some []
      | c :: rest =>
        if c = '\n' then parseGo fuel rest
        else if c = '#' then
          match find_next_char '\n' (c :: rest) with
          | none => none
          | some (ns, _) => parseGo fuel ns
        else if c = '[' then
          match find_next_char ']' rest with
          | none => none
          | some (ns, pos) =>
            (parseGo fuel (ns.drop 1)).map (fun evs => DEvent.sec (rest.take pos) :: evs)
        else
          match find_next_char '=' (c :: rest) with
          | none => none
          | some (ns, pos) =>
            match find_next_char '\n' (ns.drop 1) with
            | none => some [DEvent.key ((c :: rest).take pos), DEvent.value (ns.drop 1)]
            | some (ns2, pos2) =>
              (parseGo fuel (ns2.drop 1)).map
                (fun evs => DEvent.key ((c :: rest).take pos) ::
                  DEvent.value ((ns.drop 1).take pos2) :: evs)

/-- DesktopFile::parse over the mapped byte buffer. -/
def DesktopFile.parse (slice : List Char) : Option (List DEvent) :=
  parseGo (slice.length + 1) slice
/-! ## Icon theme resolver — src/icon.rs -/

/-- A `for`-loop that returns the first `some` produced by its body. -/
def firstSome? {α β : Type} (f : α → Option β) : List α → Option β
  | [] => none
  | a :: l =>
    match f a with
    | some b => some b
    | none => firstSome? f l

/-- BitmapIconDescription { size, scale }. -/
structure BitmapIconDescription where
  size : Nat
  scale : Nat
deriving DecidableEq

/-- IconDescription: Scalable | Bitmap. -/
inductive IconDescription where
  | Scalable
  | Bitmap (desc : BitmapIconDescription)
deriving DecidableEq

/-- IconDescription::icon_size; `usize::max_value()` is the 64-bit usize
maximum. -/
def IconDescription.icon_size : IconDescription → Nat
  | .Scalable => 2 ^ 64 - 1
  | .Bitmap desc => desc.size * desc.scale

/-- IconDir { path, desc }. -/
structure IconDir where
  path : String
  desc : IconDescription
deriving DecidableEq

/-- IconTheme; `BTreeMap<usize, Vec<IconDir>>` becomes a key-sorted pair
list (sortedness, and the grouping of each dir under its
`size*scale` key, are structural invariants of `IconTheme::new` carried as
hypotheses where a theorem needs them). -/
structure IconTheme where
  scalable_dirs : List IconDir
  bitmap_dirs : List (Nat × List IconDir)

/-- IconCollection { themes }. -/
structure IconCollection where
  themes : List IconTheme

/-- PathBuf::push of one file-name component. -/
def pathPush (p : String) (f : String) : String := p ++ "/" ++ f

/-- The scalable-loop body of IconTheme::find_icon_pred: probe
`<dir>/<name>.svg` with the condition parenthesised as on source line 118:
`(p.is_file() || p.is_symlink()) && pred(&it.desc)`. -/
def scalProbe (isFile isSym : String → Bool) (name : String)
    (pred : IconDescription → Bool) (it : IconDir) :
    Option (IconDescription × String) :=
  let p := pathPush it.path (name ++ ".svg")
  if (isFile p || isSym p) && pred it.desc then some (it.desc, p) else none

/-- The innermost bitmap probe of IconTheme::find_icon_pred:
`<dir>/<name><suffix>` with the condition parenthesised as on source line
128: `p.is_file() || p.is_symlink() && pred(&desc.desc)`. -/
def bitmapProbe (isFile isSym : String → Bool) (name : String)
    (pred : IconDescription → Bool) (sfx : String) (d : IconDir) :
    Option (IconDescription × String) :=
  let p := pathPush d.path (name ++ sfx)
  if isFile p || (isSym p && pred d.desc) then some (d.desc, p) else none

/-- One bucket of the bitmap loop: `.svg` then `.png`, each over every dir
of the bucket. -/
def bucketProbe (isFile isSym : String → Bool) (name : String)
    (pred : IconDescription → Bool) (kv : Nat × List IconDir) :
    Option (IconDescription × String) :=
  firstSome? (fun sfx => firstSome? (bitmapProbe isFile isSym name pred sfx) kv.2)
    [".svg", ".png"]

/-- IconTheme::find_icon_pred.  The filesystem probes `Path::is_file` /
`Path::is_symlink` are passed in as predicates; `bitmap_dirs.range(real_size..)`
on the sorted pair list is the filter keeping keys `≥ real_size`. -/
def IconTheme.find_icon_pred (isFile isSym : String → Bool) (th : IconTheme)
    (name : String) (real_size : Nat) (pred : IconDescription → Bool) :
    Option (IconDescription × String) :=
  match firstSome? (scalProbe isFile isSym name pred) th.scalable_dirs with
  | some r => some r
  | none =>
    firstSome? (bucketProbe isFile isSym name pred)
      (th.bitmap_dirs.filter (fun kv => real_size ≤ kv.1))

/-- IconCollection::find_icon_pred: themes in priority order, first theme
producing a match wins. -/
def IconCollection.find_icon_pred (isFile isSym : String → Bool)
    (coll : IconCollection) (name : String) (real_size : Nat)
    (pred : IconDescription → Bool) : Option (IconDescription × String) :=
  firstSome? (fun theme => theme.find_icon_pred isFile isSym name real_size pred)
    coll.themes

/-- IconCollection::find_icon. -/
def IconCollection.find_icon (isFile isSym : String → Bool)
    (coll : IconCollection) (name : String) (real_size : Nat) :
    Option (IconDescription × String) :=
  coll.find_icon_pred isFile isSym name real_size (fun _ => true)

/-- Counterexample icon data: one theme whose only bitmap bucket has
resolution 16, holding `x.png`; no scalable dirs. -/
def smallBucketTheme : IconTheme :=
  ⟨[], [(16, [⟨"/icons/th/16x16/apps", .Bitmap ⟨16, 1⟩⟩])]⟩

/-- Collection wrapping `smallBucketTheme`. -/
def smallBucketColl : IconCollection := ⟨[smallBucketTheme]⟩

/-- Filesystem for the counterexample: exactly one file exists. -/
def smallBucketFs : String → Bool := fun p => p = "/icons/th/16x16/apps/x.png"

/-- Witness icon data: buckets at resolutions 16 and 32, each holding
`x.png`. -/
def twoBucketTheme : IconTheme :=
  ⟨[], [(16, [⟨"/t/16", .Bitmap ⟨16, 1⟩⟩]), (32, [⟨"/t/32", .Bitmap ⟨32, 1⟩⟩])]⟩

/-- Filesystem for the witness: `x.png` in both buckets. -/
def twoBucketFs : String → Bool := fun p => p = "/t/16/x.png" || p = "/t/32/x.png"
/-! ## Menu index — src/menu.rs

The filesystem walk of `scan_prefix_path` / `scan_all` is I/O: the embedded
scan takes, per root, the list of tokenizer event streams the walk would
produce (stem plus events per `.desktop` / `.directory` file, the optional
`mimeapps.list` event stream, and whether the root is the user-local one).
Struct `HashMap`s become association lists (`listInsert` / `List.lookup`).
The source field names `desk_parser` / `assoc_parser` appear here as
`deskParser` / `assocParser`. -/

/-- MenuItemDetailEntry { exec, wmclass, is_terminal, mimes }. -/
structure MenuItemDetailEntry where
  exec : String
  wmclass : String
  is_terminal : Bool
  mimes : List String
deriving DecidableEq

/-- MenuItemDetail: Entry | Directory | Unknown. -/
inductive MenuItemDetail where
  | Entry (ent : MenuItemDetailEntry)
  | Directory
  | Unknown
deriving DecidableEq

/-- Whether the detail is the Directory variant. -/
def MenuItemDetail.isDirectory : MenuItemDetail → Bool
  | .Directory => true
  | _ => false

/-- MenuItem. -/
structure MenuItem where
  name : String
  icon : String
  categories : String
  basename : String
  idx : Nat
  hidden : Bool
  detail : MenuItemDetail
deriving DecidableEq

/-- MenuItem::new. -/
def MenuItem.new : MenuItem := ⟨"", "", "", "", 0, false, .Unknown⟩

/-- MenuItem::root — the synthetic hidden root Directory. -/
def MenuItem.root : MenuItem :=
  ⟨"FvwmApplications", "_root", "", "", 0, true, .Directory⟩

/-- MenuItem::other — the synthetic "Others" catch-all Directory. -/
def MenuItem.other : MenuItem :=
  ⟨"Others", "applications-other", "", "__other_apps", 1, false, .Directory⟩

/-- Menu { item_idx, children }. -/
structure Menu where
  item_idx : Nat
  children : List Nat
deriving DecidableEq

/-- AssocType: Default | Add | Remove. -/
inductive AssocType where
  | Default
  | Add
  | Remove
deriving DecidableEq

/-- Assoc { filename, mime, assoc_type }. -/
structure Assoc where
  filename : String
  mime : String
  assoc_type : AssocType
deriving DecidableEq

/-- fmt::Display for AssocType. -/
def AssocType.display : AssocType → String
  | .Add => "Add Associations"
  | .Remove => "Removed Associations"
  | .Default => "Default Applications"

/-- decode = String::from_utf8_lossy(bytes).into_owned(); the char model
carries no invalid byte sequences, so decoding is the identity embedding. -/
def decode (bytes : List Char) : String := ⟨bytes⟩

/-- Rust's byte/str `split(sep)`: every separator occurrence splits, empty
pieces included. -/
def splitOnChar (sep : Char) : List Char → List (List Char)
  | [] => [[]]
  | c :: rest =>
    if c = sep then [] :: splitOnChar sep rest
    else
      match splitOnChar sep rest with
      | [] => [[c]]
      | piece :: ps => (c :: piece) :: ps

/-- ASCII-only lowercasing, as `u8::to_ascii_lowercase`. -/
def asciiLower (c : Char) : Char :=
  if 'A' ≤ c ∧ c ≤ 'Z' then Char.ofNat (c.toNat + 32) else c

/-- MenuIndexDesktopParser — the per-file accumulator. -/
structure MenuIndexDesktopParser where
  name_str : String
  filename : String
  current : MenuItem
  current_key : String
  in_action : Bool
deriving DecidableEq

/-- MenuIndexDesktopParser::on_section (the returned bool is ignored by
DesktopFile::parse and omitted). -/
def MenuIndexDesktopParser.on_section (st : MenuIndexDesktopParser)
    (name : List Char) : MenuIndexDesktopParser :=
  if "Desktop Action".data.isPrefixOf name then { st with in_action := true }
  else if "Desktop Entry".data.isPrefixOf name then
    { st with current := { st.current with detail := .Entry ⟨"", "", false, []⟩ } }
  else st

/-- MenuIndexDesktopParser::on_key. -/
def MenuIndexDesktopParser.on_key (st : MenuIndexDesktopParser)
    (key : List Char) : MenuIndexDesktopParser :=
  if st.in_action then st else { st with current_key := decode key }

/-- MenuIndexDesktopParser::on_value. -/
def MenuIndexDesktopParser.on_value (st : MenuIndexDesktopParser)
    (value : List Char) : MenuIndexDesktopParser :=
  if st.in_action then st
  else if st.current_key = "Type" ∧ value = "Directory".data then
    { st with current := { st.current with detail := .Directory } }
  else if st.current_key = st.name_str then
    { st with current := { st.current with name := decode value } }
  else if st.current_key = "Icon" then
    { st with current := { st.current with icon := decode value } }
  else if st.current_key = "Categories" then
    { st with current := { st.current with categories := decode value } }
  else if st.current_key = "NoDisplay" then
    { st with current := { st.current with hidden := value.map asciiLower = "true".data } }
  else
    match st.current.detail with
    | .Entry detail =>
      if st.current_key = "Exec" then
        { st with current := { st.current with
          detail := .Entry { detail with exec := decode value } } }
      else if st.current_key = "StartupWMClass" then
        { st with current := { st.current with
          detail := .Entry { detail with wmclass := decode value } } }
      else if st.current_key = "Terminal" then
        { st with current := { st.current with
          detail := .Entry { detail with is_terminal := value.map asciiLower = "true".data } } }
      else if st.current_key = "MimeType" then
        { st with current := { st.current with
          detail := .Entry { detail with
            mimes := (splitOnChar ';' value).map (fun s => (⟨s⟩ : String)) } } }
      else st
    | _ => st

/-- One tokenizer pass driving the desktop-entry accumulator. -/
def runDeskParser (st : MenuIndexDesktopParser) : List DEvent → MenuIndexDesktopParser
  | [] => st
  | ev :: rest =>
    runDeskParser
      (match ev with
       | .sec n => st.on_section n
       | .key k => st.on_key k
       | .value v => st.on_value v) rest

/-- MenuIndexAssocParser — the mimeapps.list accumulator. -/
structure MenuIndexAssocParser where
  cur_mime : String
  cur_assoc : AssocType
  assocs : List Assoc
deriving DecidableEq

/-- MenuIndexAssocParser::on_section. -/
def MenuIndexAssocParser.on_section (st : MenuIndexAssocParser)
    (name : List Char) : MenuIndexAssocParser :=
  if "Default Applications".data.isPrefixOf name then { st with cur_assoc := .Default }
  else if "Add Associations".data.isPrefixOf name then { st with cur_assoc := .Add }
  else if "Removed Associations".data.isPrefixOf name then { st with cur_assoc := .Remove }
  else st

/-- MenuIndexAssocParser::on_key. -/
def MenuIndexAssocParser.on_key (st : MenuIndexAssocParser)
    (key : List Char) : MenuIndexAssocParser :=
  { st with cur_mime := ⟨key⟩ }

/-- MenuIndexAssocParser::on_value: split the value on `;`, skip empty
pieces, record one Assoc per filename (`str::from_utf8` cannot fail in the
char model). -/
def MenuIndexAssocParser.on_value (st : MenuIndexAssocParser)
    (value : List Char) : MenuIndexAssocParser :=
  { st with assocs := st.assocs ++ (splitOnChar ';' value).filterMap (fun s =>
      if s.length = 0 then none
      else some ⟨⟨s⟩, st.cur_mime, st.cur_assoc⟩) }

/-- One tokenizer pass driving the association accumulator. -/
def runAssocParser (st : MenuIndexAssocParser) : List DEvent → MenuIndexAssocParser
  | [] => st
  | ev :: rest =>
    runAssocParser
      (match ev with
       | .sec n => st.on_section n
       | .key k => st.on_key k
       | .value v => st.on_value v) rest

/-- MenuItemDetailEntry::guess_wmclass. -/
def MenuItemDetailEntry.guess_wmclass (e : MenuItemDetailEntry) : String :=
  let args := e.exec.splitOn " "
  if (args.headD "").endsWith "flatpak" then
    match (args.drop 1).find? (fun arg => arg.startsWith "--command=") with
    | some arg => arg.drop "--command=".length
    | none => ((args.headD "").splitOn "/").getLastD ""
  else ((args.headD "").splitOn "/").getLastD ""

/-- MenuAssociation { default, all }. -/
structure MenuAssociation where
  default : Option Nat
  all : List Nat
deriving DecidableEq

/-- MenuIndex state. -/
structure MenuIndex where
  index : List (String × Menu)
  mime_assoc_index : List (String × MenuAssociation)
  items : List MenuItem
  local_assocs : List Assoc
  filename_index : List (String × Nat)
  deskParser : MenuIndexDesktopParser
  assocParser : MenuIndexAssocParser
deriving DecidableEq

/-- MenuIndex::new. -/
def MenuIndex.new (locale : Option String) : MenuIndex :=
  let name_str :=
    match locale with
    | some lc => "Name[" ++ lc ++ "]"
    | none => "Name"
  let other_item := MenuItem.other
  { index := [("", ⟨0, []⟩)],
    mime_assoc_index := [],
    items := [MenuItem.root],
    local_assocs := [],
    filename_index := [],
    deskParser := ⟨name_str, other_item.basename, other_item, "", false⟩,
    assocParser := ⟨"", .Default, []⟩ }

/-- MenuIndex::new_default. -/
def MenuIndex.new_default : MenuIndex := MenuIndex.new none

/-- MenuIndex::desk_parser_reset: swap out the accumulated item; when it has
a name, stamp basename/idx, register a Directory in the category map or
guess a missing wmclass for an Entry, and append it to the arena. -/
def MenuIndex.desk_parser_reset (st : MenuIndex) : Bool × MenuIndex :=
  let current := st.deskParser.current
  let st1 := { st with deskParser :=
    { st.deskParser with current := MenuItem.new, in_action := false } }
  if current.name ≠ "" then
    let current := { current with
      basename := st1.deskParser.filename, idx := st1.items.length }
    match current.detail with
    | .Directory =>
      (true, { st1 with
        index := listInsert st1.deskParser.filename ⟨current.idx, []⟩ st1.index,
        items := st1.items ++ [current] })
    | .Entry detail =>
      let current :=
        if detail.wmclass = "" then
          { current with detail := .Entry { detail with wmclass := detail.guess_wmclass } }
        else current
      (true, { st1 with items := st1.items ++ [current] })
    | .Unknown => (true, { st1 with items := st1.items ++ [current] })
  else (false, st1)

/-- MenuIndex::assoc_parser_reset. -/
def MenuIndex.assoc_parser_reset (st : MenuIndex) : List Assoc × MenuIndex :=
  (st.assocParser.assocs,
   { st with assocParser := { st.assocParser with cur_mime := "", assocs := [] } })

/-- One `.desktop` / `.directory` file of the scan: stem (filename minus
extension) plus the tokenizer events of its contents. -/
structure DesktopFileInput where
  stem : String
  events : List DEvent
deriving DecidableEq

/-- One root of the scan: its `applications/*.desktop` files, its
`desktop-directories/*.directory` files, the optional `mimeapps.list`
event stream, and whether the root is `$HOME/.local/share/applications`. -/
structure PrefixInput where
  desktop_files : List DesktopFileInput
  directory_files : List DesktopFileInput
  mimeapps : Option (List DEvent)
  is_local : Bool
deriving DecidableEq

/-- One file iteration of scan_prefix_path: stamp the stem, run the
tokenizer pass, reset, and register the full filename when an item was
pushed. -/
def MenuIndex.scan_desktop_file (st : MenuIndex) (ext : String)
    (f : DesktopFileInput) : MenuIndex :=
  let st := { st with deskParser := { st.deskParser with filename := f.stem } }
  let st := { st with deskParser := runDeskParser st.deskParser f.events }
  let r := st.desk_parser_reset
  if r.1 then
    { r.2 with filename_index :=
        listInsert (f.stem ++ "." ++ ext) (r.2.items.length - 1) r.2.filename_index }
  else r.2

/-- Application of one mimeapps.list Assoc record (the per-record body of
scan_prefix_path).  An unknown filename or a non-Entry target drops the
record.  The arena access `self.items[*idx]` cannot be out of bounds in a
reachable state (claim C10); that dead branch leaves the state unchanged. -/
def MenuIndex.applyAssoc (st : MenuIndex) (assoc : Assoc) : MenuIndex :=
  match List.lookup assoc.filename st.filename_index with
  | none => st
  | some idx =>
    match st.items.get? idx with
    | none => st
    | some item =>
      match item.detail with
      | .Entry ent =>
        if assoc.assoc_type = .Add then
          { st with items := st.items.set idx { item with
              detail := .Entry { ent with mimes := ent.mimes ++ [assoc.mime] } } }
        else if assoc.assoc_type = .Remove then
          { st with items := st.items.set idx { item with
              detail := .Entry { ent with mimes := ent.mimes.erase assoc.mime } } }
        else
          { st with mime_assoc_index :=
              listInsert assoc.mime ⟨some idx, []⟩ st.mime_assoc_index }
      | _ => st

/-- The mimeapps.list block of scan_prefix_path: drive the association
accumulator, take its records, retain them verbatim for the local root, and
apply each record in order. -/
def MenuIndex.scan_mimeapps (st : MenuIndex) (evs : List DEvent)
    (is_local : Bool) : MenuIndex :=
  let st := { st with assocParser := runAssocParser st.assocParser evs }
  let r := st.assoc_parser_reset
  let st := if is_local then { r.2 with local_assocs := r.1 } else r.2
  r.1.foldl MenuIndex.applyAssoc st

/-- MenuIndex::scan_prefix_path: the `(app_dir, "desktop")` iteration, then
— inside that same iteration, before the `"directory"` one — the root's
mimeapps.list, then the `(dir_dir, "directory")` iteration. -/
def MenuIndex.scan_prefix_path (st : MenuIndex) (p : PrefixInput) : MenuIndex :=
  let st := p.desktop_files.foldl (fun s f => s.scan_desktop_file "desktop" f) st
  let st :=
    match p.mimeapps with
    | none => st
    | some evs => st.scan_mimeapps evs p.is_local
  p.directory_files.foldl (fun s f => s.scan_desktop_file "directory" f) st

/-- `self.index.get_mut(key)` followed by `children.push(c)`; a missing key
leaves the map unchanged (the source only unwraps it for the always-present
`""` and `"__other_apps"` keys). -/
def pushChild (key : String) (c : Nat) : List (String × Menu) → List (String × Menu)
  | [] => []
  | (k, m) :: rest =>
    if k = key then (k, { m with children := m.children ++ [c] }) :: rest
    else (k, m) :: pushChild key c rest

/-- The per-item body of the "Connect all items" loop of scan_all. -/
def connectOne (idxMap : List (String × Menu)) (item : MenuItem) :
    List (String × Menu) :=
  if item.idx = 0 then idxMap
  else if item.categories = "" ∧ item.detail.isDirectory then
    pushChild "" item.idx idxMap
  else
    let folded := (item.categories.splitOn ";").foldl
      (fun (acc : List (String × Menu) × Bool) key =>
        if key = "" then acc
        else
          match List.lookup key acc.1 with
          | some _ => (pushChild key item.idx acc.1, true)
          | none => acc)
      (idxMap, false)
    if item.basename ≠ "__other_apps" ∧ folded.2 = false then
      pushChild "__other_apps" item.idx folded.1
    else folded.1

/-- The "Connect all items" phase of scan_all. -/
def MenuIndex.connect (st : MenuIndex) : MenuIndex :=
  { st with index := st.items.foldl connectOne st.index }

/-- The per-index body of the "Build MIME associations" loop of scan_all. -/
def buildMimeOne (items : List MenuItem) (m : List (String × MenuAssociation))
    (i : Nat) : List (String × MenuAssociation) :=
  match items.get? i with
  | none => m
  | some item =>
    match item.detail with
    | .Entry ent =>
      ent.mimes.foldl (fun m mime =>
        match List.lookup mime m with
        | some assoc => listInsert mime { assoc with all := assoc.all ++ [i] } m
        | none => listInsert mime ⟨none, [i]⟩ m) m
    | _ => m

/-- The "Build MIME associations" phase of scan_all. -/
def MenuIndex.build_mime_assoc (st : MenuIndex) : MenuIndex :=
  { st with mime_assoc_index :=
      (List.range st.items.length).foldl (buildMimeOne st.items) st.mime_assoc_index }

/-- MenuIndex::scan_all over the supplied roots. -/
def MenuIndex.scan_all (st : MenuIndex) (inputs : List PrefixInput) : MenuIndex :=
  let st := (st.desk_parser_reset).2
  let st := inputs.foldl MenuIndex.scan_prefix_path st
  (st.connect).build_mime_assoc

/-- The patch loop at the end of change_default_assoc, verbatim: find the
first local Default record whose filename already equals the new filename
and assign that same filename back to it. -/
def patchLocalDefault (filename mime : String) : List Assoc → List Assoc
  | [] => []
  | a :: rest =>
    if a.assoc_type = .Default ∧ a.filename = filename ∧ a.mime = mime then
      { a with filename := filename } :: rest
    else a :: patchLocalDefault filename mime rest

/-- MenuIndex::change_default_assoc; `none` models the `self.items[idx]`
panic on an out-of-bounds index. -/
def MenuIndex.change_default_assoc (st : MenuIndex) (mime : String) (idx : Nat) :
    Option MenuIndex :=
  match st.items.get? idx with
  | none => none
  | some item =>
    let filename := item.basename ++ ".desktop"
    let old_default :=
      match List.lookup mime st.mime_assoc_index with
      | some assoc => assoc.default
      | none => none
    let st :=
      match List.lookup mime st.mime_assoc_index with
      | some assoc =>
        { st with mime_assoc_index :=
            listInsert mime { assoc with default := some idx } st.mime_assoc_index }
      | none =>
        { st with mime_assoc_index :=
            listInsert mime ⟨some idx, []⟩ st.mime_assoc_index }
    some
      (if old_default = none then
        { st with local_assocs := st.local_assocs ++ [⟨filename, mime, .Default⟩] }
      else
        { st with local_assocs := patchLocalDefault filename mime st.local_assocs })

/-- MenuIndex::write_default_assoc — the byte stream written for the
retained local records: a `[Section]` header at every kind change, then one
`mime=filename` line per record. -/
def writeAssocsGo : Option AssocType → List Assoc → List Char
  | _, [] => []
  | cur_sec, assoc :: rest =>
    (if cur_sec ≠ some assoc.assoc_type then
       '[' :: assoc.assoc_type.display.data ++ [']', '\n']
     else []) ++
    (assoc.mime.data ++ '=' :: assoc.filename.data ++ ['\n']) ++
    writeAssocsGo (some assoc.assoc_type) rest

/-- MenuIndex::write_default_assoc on the retained local records. -/
def MenuIndex.write_default_assoc (local_assocs : List Assoc) : List Char :=
  writeAssocsGo none local_assocs

/-- The MenuPrinter callbacks of a traversal, reified as a trace. -/
inductive PEvent where
  | print (idx : Nat)
  | enter (idx : Nat)
  | leave (idx : Nat)
deriving DecidableEq

/-- The per-child body of Menu::print: a Directory child recurses into the
category map entry named by its basename (a missing entry is skipped); any
other child gets the `print` callback, with no `hidden` check.  The arena
access `&index.items[*idx]` cannot be out of bounds in a reachable state
(claim C10); that dead branch contributes no events. -/
def childProbe (recur : Menu → List PEvent) (st : MenuIndex) (c : Nat) :
    List PEvent :=
  match st.items.get? c with
  | none => []
  | some item =>
    match item.detail with
    | .Directory =>
      match List.lookup item.basename st.index with
      | none => []
      | some submenu => recur submenu
    | _ => [.print c]

/-- Menu::print as the trace of callbacks it issues.  Fuel bounds the
recursion depth (the source recursion diverges on a cyclic category graph);
every claim about traces holds for every fuel. -/
def menuPrintTrace : Nat → MenuIndex → Menu → List PEvent
  | 0, _, _ => []
  | fuel + 1, st, m =>
    if m.children = [] then []
    else
      .print m.item_idx :: .enter m.item_idx ::
        ((m.children.map (fun c => childProbe (menuPrintTrace fuel st) st c)).flatten
          ++ [.leave m.item_idx])

/-- MenuIndex::print: `self.index.get("").unwrap().print(self, printer)`;
`none` models the unwrap panic on a missing root category. -/
def MenuIndex.printTrace (st : MenuIndex) (fuel : Nat) : Option (List PEvent) :=
  (List.lookup "" st.index).map (menuPrintTrace fuel st)
/-- A hidden launchable leaf item for the C6 scenario. -/
def hiddenLeafItem : MenuItem :=
  ⟨"Hidden App", "", "", "hiddenapp", 1, true, .Entry ⟨"run", "run", false, []⟩⟩

/-- A built state whose root menu has one hidden Entry child. -/
def hiddenLeafState : MenuIndex :=
  { index := [("", ⟨0, [1]⟩)],
    mime_assoc_index := [],
    items := [MenuItem.root, hiddenLeafItem],
    local_assocs := [],
    filename_index := [],
    deskParser := ⟨"Name", "__other_apps", MenuItem.new, "", false⟩,
    assocParser := ⟨"", .Default, []⟩ }

/-- A declared but childless category directory item for the C7 scenario. -/
def emptyCatItem : MenuItem :=
  ⟨"Games", "", "", "games", 1, false, .Directory⟩

/-- A built state where the root menu's only child is a category with zero
children (its `.directory` file was scanned, so the item and map entry
exist). -/
def emptyCatState : MenuIndex :=
  { index := [("", ⟨0, [1]⟩), ("games", ⟨1, []⟩)],
    mime_assoc_index := [],
    items := [MenuItem.root, emptyCatItem],
    local_assocs := [],
    filename_index := [],
    deskParser := ⟨"Name", "__other_apps", MenuItem.new, "", false⟩,
    assocParser := ⟨"", .Default, []⟩ }

/-- A launchable editor item for the C5 scenario. -/
def editorItem (nm : String) (i : Nat) : MenuItem :=
  ⟨nm, "", "", nm, i, false, .Entry ⟨nm, nm, false, []⟩⟩

/-- A built state in which `text/plain` already has a default (item 1,
`aedit.desktop`) and the matching local Default record is retained. -/
def priorDefaultState : MenuIndex :=
  { index := [("", ⟨0, []⟩)],
    mime_assoc_index := [("text/plain", ⟨some 1, [1, 2]⟩)],
    items := [MenuItem.root, editorItem "aedit" 1, editorItem "bedit" 2],
    local_assocs := [⟨"aedit.desktop", "text/plain", .Default⟩],
    filename_index := [("aedit.desktop", 1), ("bedit.desktop", 2)],
    deskParser := ⟨"Name", "__other_apps", MenuItem.new, "", false⟩,
    assocParser := ⟨"", .Default, []⟩ }
/-- Invariant of claims C9: arena slot 0 holds the synthetic hidden root
Directory and slot 1 the synthetic "Others" Directory. -/
abbrev rootOtherInv (st : MenuIndex) : Prop :=
  st.items.get? 0 = some MenuItem.root ∧ st.items.get? 1 = some MenuItem.other

/-- A freshly constructed index after an empty scan (both synthetic items
in place). -/
def scannedEmptyState : MenuIndex := (MenuIndex.new none).scan_all []

/-- Bounds of the category map against an arena of size `n`. -/
abbrev idxMapBounds (acc : List (String × Menu)) (n : Nat) : Prop :=
  ∀ p ∈ acc, p.2.item_idx < n ∧ ∀ c ∈ p.2.children, c < n

/-- Bounds of the MIME association table against an arena of size `n`. -/
abbrev mimeBounds (m : List (String × MenuAssociation)) (n : Nat) : Prop :=
  ∀ p ∈ m, (∀ d, p.2.default = some d → d < n) ∧ ∀ i ∈ p.2.all, i < n

/-- Well-formedness of the four indexed components against the arena: the
arena is nonempty, every item knows its own position, and every index stored
in the category map, the MIME association table, or the filename table is a
valid arena position. -/
abbrev wfParts (idxm : List (String × Menu)) (mime : List (String × MenuAssociation))
    (items : List MenuItem) (fidx : List (String × Nat)) : Prop :=
  0 < items.length ∧
  (∀ item ∈ items, item.idx < items.length) ∧
  idxMapBounds idxm items.length ∧
  mimeBounds mime items.length ∧
  (∀ p ∈ fidx, p.2 < items.length)

/-- Well-formedness of a MenuIndex state (claim C10). -/
abbrev MenuIndex.wf (st : MenuIndex) : Prop :=
  wfParts st.index st.mime_assoc_index st.items st.filename_index
/-- A one-entry launchable state for exercising the association
transformations. -/
def miniItem : MenuItem :=
  ⟨"mini", "", "", "mini", 1, false, .Entry ⟨"mini", "mini", false, ["text/plain"]⟩⟩

/-- State holding `miniItem` at arena position 1, registered in the filename
table. -/
def miniState : MenuIndex :=
  { index := [("", ⟨0, []⟩)],
    mime_assoc_index := [],
    items := [MenuItem.root, miniItem],
    local_assocs := [],
    filename_index := [("mini.desktop", 1)],
    deskParser := ⟨"Name", "__other_apps", MenuItem.new, "", false⟩,
    assocParser := ⟨"", .Default, []⟩ }
/-- The inputs for which write_default_assoc emits a stream the tokenizer
and association parser read back verbatim: the mime must survive as a key
(no newline or `=`, and a first byte that does not start a comment, a
section, or get whitespace-trimmed) and the filename as a single nonempty
`;`-token of the value. -/
abbrev Assoc.serializable (a : Assoc) : Prop :=
  (∀ c ∈ a.mime.data, c ≠ '\n' ∧ c ≠ '=') ∧
  a.mime.data.head? ≠ some ' ' ∧
  a.mime.data.head? ≠ some '#' ∧
  a.mime.data.head? ≠ some '[' ∧
  (∀ c ∈ a.filename.data, c ≠ '\n' ∧ c ≠ ';') ∧
  a.filename.data ≠ []
/-! ## Theorems for claim C1 -/

/-- Helper: a hit returned by the pattern scan always scores at least
`min_score` (the scan stops at the first lower-scored entry). -/
theorem matchFilenamePatternGo_score (filename : String) (min_score : Nat) :
    ∀ l item, matchFilenamePatternGo filename min_score l = some item →
      min_score ≤ item.score := by
  intro l
  induction l with
  | nil => intro item h; simp [matchFilenamePatternGo] at h
  | cons hd tl ih =>
    intro item h
    simp only [matchFilenamePatternGo] at h
    by_cases hlt : hd.score < min_score
    · rw [if_pos hlt] at h; exact absurd h (by simp)
    · rw [if_neg hlt] at h
      by_cases hm : hd.patternMatches filename = true
      · rw [if_pos hm] at h
        injection h with h2
        subst h2
        omega
      · rw [if_neg hm] at h
        exact ih item h

/-- C1 (counterexample): on the specification's own scenario, match_filename
returns the pattern result `application/x-generic`, not the suffix result
`application/x-tar-gz` the claim demands. -/
theorem c1_counterexample :
    tarGlobIndex.match_filename "archive.tar.gz" = some "application/x-generic" ∧
      some "application/x-generic" ≠ some "application/x-tar-gz" := by
  constructor
  · decide
  · decide

/-- C1 (amended): for every built index and filename, match_filename returns
the pattern-list hit whenever one qualifies — the pattern scan only admits
entries scoring at least the suffix score, so equal scores resolve to the
pattern match, not the suffix match; the suffix result is returned only when
no qualifying pattern exists and the suffix score is positive. -/
theorem c1_match_filename_tie_break (idx : MIMEGlobIndex) (filename : String) :
    (∀ item,
      idx.match_filename_pattern filename
          (((idx.match_filename_suffix filename).map (·.score)).getD 0) = some item →
        idx.match_filename filename = some item.mime) ∧
    (idx.match_filename_pattern filename
          (((idx.match_filename_suffix filename).map (·.score)).getD 0) = none →
      idx.match_filename filename =
        if 0 < ((idx.match_filename_suffix filename).map (·.score)).getD 0 then
          (idx.match_filename_suffix filename).map (·.mime)
        else none) := by
  constructor
  · intro item h
    have h' : matchFilenamePatternGo filename
        (((idx.match_filename_suffix filename).map (·.score)).getD 0)
        idx.glob_patterns = some item := h
    have hscore := matchFilenamePatternGo_score filename _ _ item h'
    simp only [MIMEGlobIndex.match_filename]
    rw [h]
    have hred : ((some item).map (fun x => x.score)).getD 0 = item.score := rfl
    rw [hred, if_neg (by omega)]
    rfl
  · intro h
    simp only [MIMEGlobIndex.match_filename]
    rw [h]
    have hred : ((none : Option MIMEGlobItem).map (fun x => x.score)).getD 0 = 0 := rfl
    rw [hred]
    by_cases hpos : 0 < ((idx.match_filename_suffix filename).map (·.score)).getD 0
    · rw [if_pos hpos, if_pos hpos]
    · rw [if_neg hpos, if_neg hpos]
      rfl

/-- C1 (witness): the amended theorem applied to the concrete scenario —
`*.tar.*` qualifies at score 50 against a suffix score of 0 (the suffix
table, keyed `.tar.gz`, is probed with `.gz` and misses), so the pattern
mime is returned. -/
theorem c1_match_filename_tie_break_witness :
    tarGlobIndex.match_filename "archive.tar.gz" = some "application/x-generic" :=
  (c1_match_filename_tie_break tarGlobIndex "archive.tar.gz").1
    ⟨50, "application/x-generic", some "*.tar.*".data⟩ (by decide)

/-! ## Theorems for claim C2 -/

/-- C2: the tokenizer is not total.  An unterminated `[`-section, a key line
with no `=` before end-of-line/EOF, and a final comment line with no
trailing newline all reach an `.unwrap()` of `None` and panic (modelled as
`none`); only the final unterminated value is emitted and ends cleanly at
EOF, as the last conjunct shows. -/
theorem c2_parse_panics_on_malformed_input :
    DesktopFile.parse "[Desktop Entry".data = none ∧
    DesktopFile.parse "Name".data = none ∧
    DesktopFile.parse "# comment".data = none ∧
    DesktopFile.parse "[Desktop Entry]\nExec=run".data =
      some [DEvent.sec "Desktop Entry".data, DEvent.key "Exec".data,
        DEvent.value "run".data] := by
  refine ⟨by decide, by decide, by decide, by decide⟩

/-! ## Helper lemmas about firstSome? -/

/-- A hit of the first-some loop originates from a list element. -/
theorem firstSome?_mem {α β : Type} (f : α → Option β) :
    ∀ l b, firstSome? f l = some b → ∃ a, a ∈ l ∧ f a = some b := by
  intro l
  induction l with
  | nil => intro b h; simp [firstSome?] at h
  | cons hd tl ih =>
    intro b h
    simp only [firstSome?] at h
    cases hhd : f hd with
    | some b2 =>
      rw [hhd] at h
      refine ⟨hd, List.mem_cons_self hd tl, ?_⟩
      rw [hhd]
      exact h
    | none =>
      rw [hhd] at h
      obtain ⟨a, ha, hfa⟩ := ih b h
      exact ⟨a, List.mem_cons_of_mem hd ha, hfa⟩

/-- If some element of the list produces a hit, the loop produces one. -/
theorem firstSome?_exists {α β : Type} (f : α → Option β) :
    ∀ l a b, a ∈ l → f a = some b → ∃ c, firstSome? f l = some c := by
  intro l
  induction l with
  | nil => intro a b ha; cases ha
  | cons hd tl ih =>
    intro a b ha hfa
    simp only [firstSome?]
    cases hhd : f hd with
    | some c => exact ⟨c, rfl⟩
    | none =>
      rcases List.mem_cons.mp ha with heq | hmem
      · subst heq; rw [hhd] at hfa; cases hfa
      · obtain ⟨c, hc⟩ := ih a b hmem hfa
        exact ⟨c, hc⟩

/-! ## Theorems for claim C3 -/

/-- C3 (counterexample): when only buckets smaller than the requested size
exist — here a single 16-pixel bucket holding `x.png`, queried at size 32 —
find_icon returns no match rather than the smaller bucket the claim
requires (`bitmap_dirs.range(real_size..)` never visits smaller keys). -/
theorem c3_counterexample :
    IconCollection.find_icon smallBucketFs (fun _ => false) smallBucketColl "x" 32 = none ∧
      smallBucketFs (pathPush "/icons/th/16x16/apps" ("x" ++ ".png")) = true := by
  constructor
  · decide
  · decide

/-- C3 (amended): find_icon searches scalable buckets first, then bitmap
buckets in ascending resolution order starting at the first bucket with
resolution ≥ S (`.svg` before `.png`): (0) a scalable hit short-circuits the
bitmap phase; (1) a returned description is either a scalable one or has
resolution ≥ S — a smaller bitmap bucket is never returned, and when only
smaller buckets exist the query returns no match; (2) the first bucket ≥ S
that holds the icon is the one returned, so S equal to an existing bucket's
resolution yields exactly that bucket and S strictly between two buckets
yields the next one ≥ S; (3) in the key-sorted bucket list an existing key S
heads the range filter. -/
theorem c3_find_icon_size_policy :
    (∀ (isFile isSym : String → Bool) (th : IconTheme) name S pred r,
       firstSome? (scalProbe isFile isSym name pred) th.scalable_dirs = some r →
       th.find_icon_pred isFile isSym name S pred = some r) ∧
    (∀ (isFile isSym : String → Bool) (coll : IconCollection) name S desc p,
       (∀ th ∈ coll.themes, ∀ kv ∈ th.bitmap_dirs, ∀ d ∈ kv.2, d.desc.icon_size = kv.1) →
       IconCollection.find_icon isFile isSym coll name S = some (desc, p) →
       (∃ th ∈ coll.themes, ∃ it ∈ th.scalable_dirs, desc = it.desc) ∨
         S ≤ desc.icon_size) ∧
    (∀ (isFile isSym : String → Bool) (th : IconTheme) name S pred k ds rest,
       th.bitmap_dirs.filter (fun kv => S ≤ kv.1) = (k, ds) :: rest →
       (∀ d ∈ ds, d.desc.icon_size = k) →
       firstSome? (scalProbe isFile isSym name pred) th.scalable_dirs = none →
       (∃ d ∈ ds, ∃ sfx ∈ [".svg", ".png"],
          bitmapProbe isFile isSym name pred sfx d ≠ none) →
       ∃ r, th.find_icon_pred isFile isSym name S pred = some r ∧
         r.1.icon_size = k) ∧
    (∀ (l : List (Nat × List IconDir)) S ds,
       l.Pairwise (fun a b => a.1 < b.1) → (S, ds) ∈ l →
       ∃ rest, l.filter (fun kv => S ≤ kv.1) = (S, ds) :: rest) := by
  refine ⟨?_, ?_, ?_, ?_⟩
  · intro isFile isSym th name S pred r h
    unfold IconTheme.find_icon_pred
    rw [h]
  · intro isFile isSym coll name S desc p hgroup h
    obtain ⟨th, hth, hfind⟩ := firstSome?_mem _ coll.themes (desc, p) h
    unfold IconTheme.find_icon_pred at hfind
    cases hscal : firstSome? (scalProbe isFile isSym name (fun _ => true))
        th.scalable_dirs with
    | some r0 =>
      rw [hscal] at hfind
      injection hfind with hr0
      obtain ⟨it, hit, hprobe⟩ := firstSome?_mem _ th.scalable_dirs r0 hscal
      unfold scalProbe at hprobe
      by_cases hcond : ((isFile (pathPush it.path (name ++ ".svg")) ||
          isSym (pathPush it.path (name ++ ".svg"))) && true) = true
      · rw [if_pos hcond] at hprobe
        injection hprobe with hpair
        left
        refine ⟨th, hth, it, hit, ?_⟩
        have hpr : (it.desc, pathPush it.path (name ++ ".svg")) = (desc, p) :=
          hpair.trans hr0
        exact (congrArg Prod.fst hpr).symm
      · rw [if_neg hcond] at hprobe
        cases hprobe
    | none =>
      rw [hscal] at hfind
      obtain ⟨kv, hkv, hbucket⟩ := firstSome?_mem _ _ (desc, p) hfind
      have hkvmem := List.mem_filter.mp hkv
      have hge : S ≤ kv.1 := by
        have := hkvmem.2
        simpa using this
      obtain ⟨sfx, _, hinner⟩ := firstSome?_mem _ _ (desc, p) hbucket
      obtain ⟨d, hd, hdprobe⟩ := firstSome?_mem _ _ (desc, p) hinner
      unfold bitmapProbe at hdprobe
      by_cases hcond : (isFile (pathPush d.path (name ++ sfx)) ||
          (isSym (pathPush d.path (name ++ sfx)) && true)) = true
      · rw [if_pos hcond] at hdprobe
        injection hdprobe with hpair
        right
        have hdesc : desc = d.desc := by
          have := congrArg Prod.fst hpair
          exact this.symm
        rw [hdesc, hgroup th hth kv hkvmem.1 d hd]
        exact hge
      · rw [if_neg hcond] at hdprobe
        cases hdprobe
  · intro isFile isSym th name S pred k ds rest hfilter hgroup hscal hex
    obtain ⟨d, hd, sfx, hsfx, hprobe⟩ := hex
    cases hpv : bitmapProbe isFile isSym name pred sfx d with
    | none => exact absurd hpv hprobe
    | some b =>
      obtain ⟨c, hc⟩ := firstSome?_exists (bitmapProbe isFile isSym name pred sfx)
        ds d b hd hpv
      obtain ⟨r, hr⟩ := firstSome?_exists
        (fun s => firstSome? (bitmapProbe isFile isSym name pred s) ds)
        [".svg", ".png"] sfx c hsfx hc
      have hbp : bucketProbe isFile isSym name pred (k, ds) = some r := hr
      refine ⟨r, ?_, ?_⟩
      · unfold IconTheme.find_icon_pred
        rw [hscal, hfilter]
        simp only [firstSome?]
        rw [hbp]
      · obtain ⟨sfx2, _, hinner⟩ := firstSome?_mem _ _ r hbp
        obtain ⟨d2, hd2, hdprobe⟩ := firstSome?_mem _ _ r hinner
        unfold bitmapProbe at hdprobe
        by_cases hcond : (isFile (pathPush d2.path (name ++ sfx2)) ||
            (isSym (pathPush d2.path (name ++ sfx2)) && pred d2.desc)) = true
        · rw [if_pos hcond] at hdprobe
          injection hdprobe with hpr
          rw [(congrArg Prod.fst hpr).symm]
          exact hgroup d2 hd2
        · rw [if_neg hcond] at hdprobe
          cases hdprobe
  · intro l
    induction l with
    | nil => intro S ds _ hmem; cases hmem
    | cons hd tl ih =>
      intro S ds hpw hmem
      rcases List.mem_cons.mp hmem with heq | hmem2
      · refine ⟨tl.filter (fun kv => S ≤ kv.1), ?_⟩
        rw [← heq]
        rw [List.filter_cons_of_pos]
        simp
      · have hlt : hd.1 < S := by
          have := (List.pairwise_cons.mp hpw).1 (S, ds) hmem2
          simpa using this
        have hneg : ¬ (S ≤ hd.1) := by omega
        rw [List.filter_cons_of_neg (by simpa using hneg)]
        exact ih S ds (List.pairwise_cons.mp hpw).2 hmem2

/-- C3 (witness): buckets at 16 and 32 with the icon in both, queried at
size 24 — strictly between the two — return the 32 bucket. -/
theorem c3_find_icon_size_policy_witness :
    ∃ r, twoBucketTheme.find_icon_pred twoBucketFs (fun _ => false) "x" 24
        (fun _ => true) = some r ∧ r.1.icon_size = 32 :=
  c3_find_icon_size_policy.2.2.1 twoBucketFs (fun _ => false) twoBucketTheme "x" 24
    (fun _ => true) 32 [⟨"/t/32", .Bitmap ⟨32, 1⟩⟩] []
    (by decide) (by decide) (by decide)
    ⟨⟨"/t/32", .Bitmap ⟨32, 1⟩⟩, by decide, ".png", by decide, by decide⟩

/-! ## Theorems for claim C7 -/

/-- C7: a category node with an empty children sequence is never visited —
its own trace is empty, and as a Directory child of another menu it
contributes no events, even though its arena item and category-map entry
exist (the `.directory` file was scanned). -/
theorem c7_empty_category_skipped :
    (∀ fuel st m, m.children = [] → menuPrintTrace fuel st m = []) ∧
    (∀ fuel (st : MenuIndex) c item submenu, st.items.get? c = some item →
      item.detail = .Directory →
      List.lookup item.basename st.index = some submenu →
      submenu.children = [] →
      childProbe (menuPrintTrace fuel st) st c = []) := by
  constructor
  · intro fuel st m h
    cases fuel with
    | zero => rfl
    | succ f => simp [menuPrintTrace, h]
  · intro fuel st c item submenu hget hdir hlook hempty
    simp only [childProbe, hget, hdir, hlook]
    cases fuel with
    | zero => rfl
    | succ f => simp [menuPrintTrace, hempty]

/-- C7 (witness): in the concrete childless-category state, the category's
own trace is empty and it contributes nothing as a child of the root. -/
theorem c7_empty_category_skipped_witness :
    menuPrintTrace 5 emptyCatState ⟨1, []⟩ = [] ∧
      childProbe (menuPrintTrace 5 emptyCatState) emptyCatState 1 = [] :=
  ⟨c7_empty_category_skipped.1 5 emptyCatState ⟨1, []⟩ rfl,
   c7_empty_category_skipped.2 5 emptyCatState 1 emptyCatItem ⟨1, []⟩
     (by decide) (by decide) (by decide) rfl⟩

/-! ## Theorems for claim C6 -/

/-- C6 (counterexample): a hidden leaf child does receive the visitor's
print callback — the traversal of the concrete state emits `print 1`
although item 1 has `hidden = true`.  Menu::print performs no hidden check;
filtering is left to the visitor (the bundled front end checks
`item.hidden` itself). -/
theorem c6_counterexample :
    hiddenLeafState.printTrace 2 =
      some [.print 0, .enter 0, .print 1, .leave 0] ∧
      (hiddenLeafState.items.get? 1).map (·.hidden) = some true := by
  constructor
  · decide
  · decide

/-- C6 (amended): during a traversal every non-Directory child of a visited
menu receives the print callback regardless of its hidden flag (hidden
filtering is the visitor's job, not the traversal's), and a visited
directory receives print, then enter_menu, the children's traces, then
leave_menu. -/
theorem c6_leaf_print_ignores_hidden :
    (∀ fuel (st : MenuIndex) c item, st.items.get? c = some item →
      item.detail.isDirectory = false →
      childProbe (menuPrintTrace fuel st) st c = [.print c]) ∧
    (∀ fuel st (m : Menu), m.children ≠ [] →
      menuPrintTrace (fuel + 1) st m =
        .print m.item_idx :: .enter m.item_idx ::
          ((m.children.map (fun c => childProbe (menuPrintTrace fuel st) st c)).flatten
            ++ [.leave m.item_idx])) := by
  constructor
  · intro fuel st c item hget hnd
    simp only [childProbe, hget]
    cases hdet : item.detail with
    | Entry e => rfl
    | Directory => rw [hdet] at hnd; simp [MenuItemDetail.isDirectory] at hnd
    | Unknown => rfl
  · intro fuel st m h
    simp [menuPrintTrace, h]

/-- C6 (witness): the amended theorem applied to the hidden-leaf state —
the hidden item 1 is printed. -/
theorem c6_leaf_print_ignores_hidden_witness :
    childProbe (menuPrintTrace 1 hiddenLeafState) hiddenLeafState 1 = [.print 1] :=
  c6_leaf_print_ignores_hidden.1 1 hiddenLeafState 1 hiddenLeafItem rfl rfl

/-! ## Theorems for claim C5 -/

/-- C5: the in-place patch of the retained local Default record never
happens.  The patch loop's guard compares each record against the new
item's filename and then assigns that same filename back, a no-op — so
`patchLocalDefault` is the identity on every list, and in the concrete
state with a prior default (`aedit.desktop`) the call
`change_default_assoc("text/plain", 2)` updates the in-memory default to
item 2 but leaves the local record's filename at `aedit.desktop` instead
of patching it to `bedit.desktop`. -/
theorem c5_patch_loop_never_patches :
    (∀ l filename mime, patchLocalDefault filename mime l = l) ∧
    (priorDefaultState.change_default_assoc "text/plain" 2).map (fun st =>
        ((List.lookup "text/plain" st.mime_assoc_index).map (·.default),
          st.local_assocs)) =
      some (some (some 2), [⟨"aedit.desktop", "text/plain", .Default⟩]) := by
  constructor
  · intro l filename mime
    induction l with
    | nil => rfl
    | cons a rest ih =>
      simp only [patchLocalDefault]
      by_cases hc : a.assoc_type = .Default ∧ a.filename = filename ∧ a.mime = mime
      · rw [if_pos hc]
        obtain ⟨h1, h2, h3⟩ := hc
        cases a with
        | mk f m t =>
          simp only at h2
          rw [← h2]
      · rw [if_neg hc, ih]
  · decide

/-! ## List helper lemmas shared by the menu-state claims -/

/-- Appending on the right preserves successful positional lookups. -/
theorem get?_append_left {α : Type} : ∀ (l l' : List α) (i : Nat) (it : α),
    l.get? i = some it → (l ++ l').get? i = some it := by
  intro l
  induction l with
  | nil => intro l' i it h; simp at h
  | cons hd tl ih =>
    intro l' i it h
    cases i with
    | zero => simpa using h
    | succ n =>
      simp only [List.cons_append, List.get?_cons_succ] at h ⊢
      exact ih l' n it h

/-- Setting another position does not change a positional lookup. -/
theorem get?_set_of_ne {α : Type} : ∀ (l : List α) (i j : Nat) (x : α), i ≠ j →
    (l.set j x).get? i = l.get? i := by
  intro l
  induction l with
  | nil => intro i j x _; rfl
  | cons hd tl ih =>
    intro i j x h
    cases j with
    | zero =>
      cases i with
      | zero => exact absurd rfl h
      | succ n => simp [List.set]
    | succ m =>
      cases i with
      | zero => simp [List.set]
      | succ n =>
        simp only [List.set, List.get?_cons_succ]
        exact ih n m x (fun hh => h (by rw [hh]))

/-- Setting a valid position makes the positional lookup return the new
value. -/
theorem get?_set_self {α : Type} : ∀ (l : List α) (j : Nat) (x : α), j < l.length →
    (l.set j x).get? j = some x := by
  intro l
  induction l with
  | nil => intro j x h; simp at h
  | cons hd tl ih =>
    intro j x h
    cases j with
    | zero => rfl
    | succ n =>
      simp only [List.set, List.get?_cons_succ]
      exact ih n x (by simpa using h)

/-- Membership in a list after `set` comes from the new value or the old
list. -/
theorem mem_set {α : Type} : ∀ (l : List α) (j : Nat) (x it : α),
    it ∈ l.set j x → it = x ∨ it ∈ l := by
  intro l
  induction l with
  | nil => intro j x it h; simp at h
  | cons hd tl ih =>
    intro j x it h
    cases j with
    | zero =>
      simp only [List.set] at h
      rcases List.mem_cons.mp h with h1 | h2
      · left; exact h1
      · right; exact List.mem_cons_of_mem hd h2
    | succ m =>
      simp only [List.set] at h
      rcases List.mem_cons.mp h with h1 | h2
      · right; rw [h1]; exact List.mem_cons_self hd tl
      · rcases ih m x it h2 with h3 | h4
        · left; exact h3
        · right; exact List.mem_cons_of_mem hd h4

/-- A successful association-list lookup exhibits a member. -/
theorem lookup_mem {α : Type} : ∀ (l : List (String × α)) (k : String) (v : α),
    List.lookup k l = some v → (k, v) ∈ l := by
  intro l
  induction l with
  | nil => intro k v h; simp [List.lookup] at h
  | cons hd tl ih =>
    obtain ⟨k2, v2⟩ := hd
    intro k v h
    simp only [List.lookup] at h
    cases hbeq : (k == k2) with
    | true =>
      rw [hbeq] at h
      have hk : k = k2 := beq_iff_eq.mp hbeq
      have hv : v2 = v := by simpa using h
      rw [hk, ← hv]
      exact List.mem_cons_self _ _
    | false =>
      rw [hbeq] at h
      exact List.mem_cons_of_mem _ (ih k v h)

/-- Membership after a map insert comes from the new binding or the old
map. -/
theorem mem_listInsert {α : Type} (k : String) (v : α) :
    ∀ l p, p ∈ listInsert k v l → p = (k, v) ∨ p ∈ l := by
  intro l
  induction l with
  | nil =>
    intro p h
    simp only [listInsert] at h
    left
    simpa using h
  | cons hd tl ih =>
    obtain ⟨k2, v2⟩ := hd
    intro p h
    simp only [listInsert] at h
    by_cases heq : k2 = k
    · rw [if_pos heq] at h
      rcases List.mem_cons.mp h with h1 | h2
      · left; exact h1
      · right; exact List.mem_cons_of_mem _ h2
    · rw [if_neg heq] at h
      rcases List.mem_cons.mp h with h1 | h2
      · right; rw [h1]; exact List.mem_cons_self _ _
      · rcases ih p h2 with h3 | h4
        · left; exact h3
        · right; exact List.mem_cons_of_mem _ h4

/-- Looking up the freshly inserted key yields the inserted value. -/
theorem lookup_listInsert_self {α : Type} (k : String) (v : α) :
    ∀ l, List.lookup k (listInsert k v l) = some v := by
  intro l
  induction l with
  | nil => simp [listInsert, List.lookup]
  | cons hd tl ih =>
    obtain ⟨k2, v2⟩ := hd
    simp only [listInsert]
    by_cases heq : k2 = k
    · rw [if_pos heq]
      simp [List.lookup]
    · rw [if_neg heq]
      simp only [List.lookup]
      have hne : (k == k2) = false :=
        beq_eq_false_iff_ne.mpr (fun hh => heq hh.symm)
      rw [hne]
      exact ih

/-- Inserting one key does not change lookups of other keys. -/
theorem lookup_listInsert_ne {α : Type} (k k2 : String) (v : α) (hne : k2 ≠ k) :
    ∀ l, List.lookup k2 (listInsert k v l) = List.lookup k2 l := by
  intro l
  induction l with
  | nil =>
    simp only [listInsert, List.lookup]
    rw [beq_eq_false_iff_ne.mpr hne]
  | cons hd tl ih =>
    obtain ⟨k3, v3⟩ := hd
    simp only [listInsert]
    by_cases heq : k3 = k
    · rw [if_pos heq]
      simp only [List.lookup]
      rw [beq_eq_false_iff_ne.mpr hne, beq_eq_false_iff_ne.mpr (by rw [heq]; exact hne)]
    · rw [if_neg heq]
      simp only [List.lookup]
      cases hbeq : (k2 == k3) with
      | true => rfl
      | false => exact ih

/-- Membership after `pushChild` comes from an entry of the old map, with
the same key and item index and with children either unchanged or extended
by the pushed child. -/
theorem mem_pushChild (key : String) (c : Nat) :
    ∀ l p, p ∈ pushChild key c l →
      ∃ q, q ∈ l ∧ p.1 = q.1 ∧ p.2.item_idx = q.2.item_idx ∧
        (p.2.children = q.2.children ++ [c] ∨ p.2.children = q.2.children) := by
  intro l
  induction l with
  | nil => intro p h; simp [pushChild] at h
  | cons hd tl ih =>
    obtain ⟨k2, m2⟩ := hd
    intro p h
    simp only [pushChild] at h
    by_cases heq : k2 = key
    · rw [if_pos heq] at h
      rcases List.mem_cons.mp h with h1 | h2
      · exact ⟨(k2, m2), List.mem_cons_self _ _, by rw [h1], by rw [h1],
          Or.inl (by rw [h1])⟩
      · exact ⟨p, List.mem_cons_of_mem _ h2, rfl, rfl, Or.inr rfl⟩
    · rw [if_neg heq] at h
      rcases List.mem_cons.mp h with h1 | h2
      · exact ⟨(k2, m2), List.mem_cons_self _ _, by rw [h1], by rw [h1],
          Or.inr (by rw [h1])⟩
      · obtain ⟨q, hq, h3, h4, h5⟩ := ih p h2
        exact ⟨q, List.mem_cons_of_mem _ hq, h3, h4, h5⟩

/-- A fold preserves any invariant its step preserves. -/
theorem foldl_preserves {α β : Type} (P : α → Prop) (f : α → β → α)
    (h : ∀ s b, P s → P (f s b)) : ∀ (l : List β) (s : α), P s → P (l.foldl f s) := by
  intro l
  induction l with
  | nil => intro s hs; exact hs
  | cons hd tl ih => intro s hs; exact ih (f s hd) (h s hd hs)

/-- A fold establishes an invariant if some traversed element establishes it
and every step preserves it. -/
theorem foldl_establish {α β : Type} (P : α → Prop) (f : α → β → α) (b0 : β)
    (hest : ∀ s, P (f s b0)) (h : ∀ s b, P s → P (f s b)) :
    ∀ (l : List β) (s : α), b0 ∈ l → P (l.foldl f s) := by
  intro l
  induction l with
  | nil => intro s h0; cases h0
  | cons hd tl ih =>
    intro s h0
    rcases List.mem_cons.mp h0 with h1 | h2
    · rw [← h1]
      exact foldl_preserves P f h tl (f s b0) (hest s)
    · exact ih (f s hd) h2

/-! ## Preservation of arena prefixes by the scan operations (C9) -/

/-- desk_parser_reset only appends to the arena. -/
theorem reset_items_get? (st : MenuIndex) (i : Nat) (it : MenuItem)
    (h : st.items.get? i = some it) :
    (st.desk_parser_reset).2.items.get? i = some it := by
  simp only [MenuIndex.desk_parser_reset]
  split
  · split
    · exact get?_append_left _ _ _ _ h
    · exact get?_append_left _ _ _ _ h
    · exact get?_append_left _ _ _ _ h
  · exact h

/-- applyAssoc never touches a Directory item (it only rewrites the Entry
found via the filename table). -/
theorem applyAssoc_items_get?D (st : MenuIndex) (a : Assoc) (i : Nat)
    (it : MenuItem) (h : st.items.get? i = some it)
    (hnd : it.detail.isDirectory = true) :
    (st.applyAssoc a).items.get? i = some it := by
  simp only [MenuIndex.applyAssoc]
  cases hl : List.lookup a.filename st.filename_index with
  | none => simp only [hl]; exact h
  | some idx =>
    simp only [hl]
    cases hg : st.items.get? idx with
    | none => simp only [hg]; exact h
    | some item =>
      simp only [hg]
      cases hdet : item.detail with
      | Entry ent =>
        simp only [hdet]
        have hne : i ≠ idx := by
          intro heq
          rw [heq, hg] at h
          injection h with hii
          rw [← hii, hdet] at hnd
          simp [MenuItemDetail.isDirectory] at hnd
        by_cases hA : a.assoc_type = .Add
        · rw [if_pos hA]
          exact (get?_set_of_ne st.items i idx _ hne).trans h
        · rw [if_neg hA]
          by_cases hR : a.assoc_type = .Remove
          · rw [if_pos hR]
            exact (get?_set_of_ne st.items i idx _ hne).trans h
          · rw [if_neg hR]
            exact h
      | Directory => simp only [hdet]; exact h
      | Unknown => simp only [hdet]; exact h

/-- scan_desktop_file only appends to the arena. -/
theorem scan_desktop_items_get? (st : MenuIndex) (ext : String)
    (f : DesktopFileInput) (i : Nat) (it : MenuItem)
    (h : st.items.get? i = some it) :
    (st.scan_desktop_file ext f).items.get? i = some it := by
  simp only [MenuIndex.scan_desktop_file]
  split
  · exact reset_items_get? _ i it h
  · exact reset_items_get? _ i it h

/-- scan_mimeapps preserves Directory items. -/
theorem scan_mimeapps_items_get?D (st : MenuIndex) (evs : List DEvent)
    (is_local : Bool) (i : Nat) (it : MenuItem)
    (h : st.items.get? i = some it) (hnd : it.detail.isDirectory = true) :
    (st.scan_mimeapps evs is_local).items.get? i = some it := by
  simp only [MenuIndex.scan_mimeapps]
  split
  · refine foldl_preserves (fun s => s.items.get? i = some it) MenuIndex.applyAssoc
      (fun s a hp => applyAssoc_items_get?D s a i it hp hnd) _ _ ?_
    exact h
  · refine foldl_preserves (fun s => s.items.get? i = some it) MenuIndex.applyAssoc
      (fun s a hp => applyAssoc_items_get?D s a i it hp hnd) _ _ ?_
    exact h

/-- scan_prefix_path preserves Directory items. -/
theorem scan_prefix_items_get?D (st : MenuIndex) (p : PrefixInput) (i : Nat)
    (it : MenuItem) (h : st.items.get? i = some it)
    (hnd : it.detail.isDirectory = true) :
    (st.scan_prefix_path p).items.get? i = some it := by
  simp only [MenuIndex.scan_prefix_path]
  refine foldl_preserves (fun s => s.items.get? i = some it)
    (fun s f => MenuIndex.scan_desktop_file s "directory" f)
    (fun s f hp => scan_desktop_items_get? s "directory" f i it hp) _ _ ?_
  cases hm : p.mimeapps with
  | none =>
    simp only [hm]
    refine foldl_preserves (fun s => s.items.get? i = some it)
      (fun s f => MenuIndex.scan_desktop_file s "desktop" f)
      (fun s f hp => scan_desktop_items_get? s "desktop" f i it hp) _ _ ?_
    exact h
  | some evs =>
    simp only [hm]
    refine scan_mimeapps_items_get?D _ evs p.is_local i it ?_ hnd
    refine foldl_preserves (fun s => s.items.get? i = some it)
      (fun s f => MenuIndex.scan_desktop_file s "desktop" f)
      (fun s f hp => scan_desktop_items_get? s "desktop" f i it hp) _ _ ?_
    exact h

/-- scan_all preserves Directory items already in the arena. -/
theorem scan_all_items_get?D (st : MenuIndex) (inputs : List PrefixInput)
    (i : Nat) (it : MenuItem) (h : st.items.get? i = some it)
    (hnd : it.detail.isDirectory = true) :
    (st.scan_all inputs).items.get? i = some it := by
  simp only [MenuIndex.scan_all]
  refine foldl_preserves (fun s => s.items.get? i = some it)
    MenuIndex.scan_prefix_path
    (fun s p hp => scan_prefix_items_get?D s p i it hp hnd) _ _ ?_
  exact reset_items_get? st i it h

/-- change_default_assoc leaves the arena untouched. -/
theorem change_default_items_eq (st : MenuIndex) (mime : String) (idx : Nat)
    (st' : MenuIndex) (h : st.change_default_assoc mime idx = some st') :
    st'.items = st.items := by
  simp only [MenuIndex.change_default_assoc] at h
  cases hg : st.items.get? idx with
  | none => simp only [hg] at h; cases h
  | some item =>
    simp only [hg] at h
    cases hlk : List.lookup mime st.mime_assoc_index with
    | none =>
      simp only [hlk] at h
      injection h with hst
      rw [← hst]
      split
      · rfl
      · rfl
    | some assoc =>
      simp only [hlk] at h
      injection h with hst
      rw [← hst]
      split
      · rfl
      · rfl

/-! ## Theorems for claim C9 -/

/-- The first desk_parser_reset of a freshly constructed index pushes the
pending "Others" accumulator into arena slot 1. -/
theorem new_reset_inv (locale : Option String) :
    rootOtherInv ((MenuIndex.new locale).desk_parser_reset).2 :=
  ⟨rfl, rfl⟩

/-- C9 (counterexample): immediately after construction the arena holds only
the root — there is no item 1 at all, so "item 1 is always the synthetic
Others Directory" fails in the constructed state (the Others item lives in
the parser accumulator until the first scan_all). -/
theorem c9_counterexample : (MenuIndex.new none).items.get? 1 = none := rfl

/-- C9 (amended): arena item 0 is the synthetic hidden root Directory from
construction onward, and item 1 is the synthetic "Others" Directory from the
first scan_all onward; both are preserved by every further scan_all and by
change_default_assoc (and traversal reads the state without mutating it). -/
theorem c9_synthetic_root_and_others :
    (∀ locale inputs, rootOtherInv ((MenuIndex.new locale).scan_all inputs)) ∧
    (∀ st inputs, rootOtherInv st → rootOtherInv (st.scan_all inputs)) ∧
    (∀ st mime idx st', rootOtherInv st →
      st.change_default_assoc mime idx = some st' → rootOtherInv st') := by
  refine ⟨?_, ?_, ?_⟩
  · intro locale inputs
    have hr := new_reset_inv locale
    have hf : rootOtherInv (inputs.foldl MenuIndex.scan_prefix_path
        ((MenuIndex.new locale).desk_parser_reset).2) := by
      constructor
      · exact foldl_preserves (fun s => s.items.get? 0 = some MenuItem.root)
          MenuIndex.scan_prefix_path
          (fun s p hp => scan_prefix_items_get?D s p 0 MenuItem.root hp rfl)
          inputs _ hr.1
      · exact foldl_preserves (fun s => s.items.get? 1 = some MenuItem.other)
          MenuIndex.scan_prefix_path
          (fun s p hp => scan_prefix_items_get?D s p 1 MenuItem.other hp rfl)
          inputs _ hr.2
    exact hf
  · intro st inputs h
    exact ⟨scan_all_items_get?D st inputs 0 MenuItem.root h.1 rfl,
           scan_all_items_get?D st inputs 1 MenuItem.other h.2 rfl⟩
  · intro st mime idx st' hinv heq
    have hit := change_default_items_eq st mime idx st' heq
    exact ⟨by rw [hit]; exact hinv.1, by rw [hit]; exact hinv.2⟩

/-- C9 (witness): the invariant holds after a further empty rescan of the
built empty state, and is preserved by a concrete change_default_assoc
call. -/
theorem c9_synthetic_root_and_others_witness :
    rootOtherInv (scannedEmptyState.scan_all []) ∧
      (∃ st', scannedEmptyState.change_default_assoc "text/plain" 0 = some st' ∧
        rootOtherInv st') := by
  constructor
  · exact c9_synthetic_root_and_others.2.1 scannedEmptyState [] (by decide)
  · cases hEq : scannedEmptyState.change_default_assoc "text/plain" 0 with
    | none => exact absurd hEq (by decide)
    | some st' =>
      exact ⟨st', rfl,
        c9_synthetic_root_and_others.2.2 scannedEmptyState "text/plain" 0 st'
          (by decide) hEq⟩

/-! ## Well-formedness machinery for claim C10 -/

/-- A successful positional lookup is within bounds. -/
theorem get?_lt_length {α : Type} : ∀ (l : List α) (i : Nat) (x : α),
    l.get? i = some x → i < l.length := by
  intro l
  induction l with
  | nil => intro i x h; simp at h
  | cons hd tl ih =>
    intro i x h
    cases i with
    | zero => simp
    | succ n =>
      simp only [List.get?_cons_succ] at h
      have := ih n x h
      simpa using Nat.succ_lt_succ this

/-- A successful positional lookup exhibits a member. -/
theorem get?_mem {α : Type} : ∀ (l : List α) (i : Nat) (x : α),
    l.get? i = some x → x ∈ l := by
  intro l
  induction l with
  | nil => intro i x h; simp at h
  | cons hd tl ih =>
    intro i x h
    cases i with
    | zero =>
      simp only [List.get?_cons_zero] at h
      injection h with h2
      rw [← h2]
      exact List.mem_cons_self hd tl
    | succ n =>
      simp only [List.get?_cons_succ] at h
      exact List.mem_cons_of_mem hd (ih n x h)

/-- Appending an item that knows its position preserves well-formedness. -/
theorem wfParts_append {i m f} {its : List MenuItem} (h : wfParts i m its f)
    (x : MenuItem) (hx : x.idx = its.length) : wfParts i m (its ++ [x]) f := by
  obtain ⟨hpos, hitems, hindex, hmime, hfidx⟩ := h
  have hlen : (its ++ [x]).length = its.length + 1 := by simp
  refine ⟨by omega, ?_, ?_, ?_, ?_⟩
  · intro item him
    rcases List.mem_append.mp him with h1 | h2
    · have := hitems item h1; omega
    · have : item = x := by simpa using h2
      rw [this, hx]; omega
  · intro p hp
    have := hindex p hp
    exact ⟨by omega, fun c hc => by have := this.2 c hc; omega⟩
  · intro p hp
    have := hmime p hp
    exact ⟨fun d hd => by have := this.1 d hd; omega,
           fun j hj => by have := this.2 j hj; omega⟩
  · intro p hp
    have := hfidx p hp
    omega

/-- Registering a bounded menu in the category map preserves
well-formedness. -/
theorem wfParts_insert_index {i m f} {its : List MenuItem} (h : wfParts i m its f)
    (k : String) (j : Nat) (hj : j < its.length) :
    wfParts (listInsert k ⟨j, []⟩ i) m its f := by
  obtain ⟨hpos, hitems, hindex, hmime, hfidx⟩ := h
  refine ⟨hpos, hitems, ?_, hmime, hfidx⟩
  intro p hp
  rcases mem_listInsert k ⟨j, []⟩ i p hp with h1 | h2
  · rw [h1]
    exact ⟨hj, by intro c hc; simp at hc⟩
  · exact hindex p h2

/-- Registering a bounded position in the filename table preserves
well-formedness. -/
theorem wfParts_insert_fidx {i m f} {its : List MenuItem} (h : wfParts i m its f)
    (k : String) (v : Nat) (hv : v < its.length) :
    wfParts i m its (listInsert k v f) := by
  obtain ⟨hpos, hitems, hindex, hmime, hfidx⟩ := h
  refine ⟨hpos, hitems, hindex, hmime, ?_⟩
  intro p hp
  rcases mem_listInsert k v f p hp with h1 | h2
  · rw [h1]; exact hv
  · exact hfidx p h2

/-- Inserting a bounded association preserves well-formedness. -/
theorem wfParts_insert_mime {i m f} {its : List MenuItem} (h : wfParts i m its f)
    (k : String) (assoc : MenuAssociation)
    (hdef : ∀ d, assoc.default = some d → d < its.length)
    (hall : ∀ x ∈ assoc.all, x < its.length) :
    wfParts i (listInsert k assoc m) its f := by
  obtain ⟨hpos, hitems, hindex, hmime, hfidx⟩ := h
  refine ⟨hpos, hitems, hindex, ?_, hfidx⟩
  intro p hp
  rcases mem_listInsert k assoc m p hp with h1 | h2
  · rw [h1]; exact ⟨hdef, hall⟩
  · exact hmime p h2

/-- Replacing an item by one that keeps its position preserves
well-formedness. -/
theorem wfParts_set {i m f} {its : List MenuItem} (h : wfParts i m its f)
    (j : Nat) (x old : MenuItem) (hg : its.get? j = some old)
    (hx : x.idx = old.idx) : wfParts i m (its.set j x) f := by
  obtain ⟨hpos, hitems, hindex, hmime, hfidx⟩ := h
  have hlen : (its.set j x).length = its.length := by simp
  refine ⟨by omega, ?_, ?_, ?_, ?_⟩
  · intro item him
    rcases mem_set its j x item him with h1 | h2
    · rw [h1, hx, hlen]
      exact hitems old (get?_mem its j old hg)
    · rw [hlen]; exact hitems item h2
  · intro p hp
    have := hindex p hp
    rw [hlen]
    exact this
  · intro p hp
    have := hmime p hp
    rw [hlen]
    exact this
  · intro p hp
    rw [hlen]
    exact hfidx p hp

/-- Pushing a bounded child into the category map keeps it bounded. -/
theorem pushChild_bounds {acc : List (String × Menu)} {n : Nat}
    (hacc : idxMapBounds acc n) (key : String) (c : Nat) (hc : c < n) :
    idxMapBounds (pushChild key c acc) n := by
  intro p hp
  obtain ⟨q, hq, _, h4, h5⟩ := mem_pushChild key c acc p hp
  refine ⟨by rw [h4]; exact (hacc q hq).1, ?_⟩
  intro x hx
  rcases h5 with h5 | h5
  · rw [h5] at hx
    rcases List.mem_append.mp hx with h6 | h6
    · exact (hacc q hq).2 x h6
    · have : x = c := by simpa using h6
      rw [this]; exact hc
  · rw [h5] at hx
    exact (hacc q hq).2 x hx

/-- A fold whose step only needs its invariant for traversed elements. -/
theorem foldl_preserves_mem {α β : Type} (P : α → Prop) (f : α → β → α) :
    ∀ (l : List β), (∀ s b, b ∈ l → P s → P (f s b)) →
      ∀ s, P s → P (l.foldl f s) := by
  intro l
  induction l with
  | nil => intro _ s hs; exact hs
  | cons hd tl ih =>
    intro h s hs
    exact ih (fun s2 b hb hp => h s2 b (List.mem_cons_of_mem hd hb) hp)
      (f s hd) (h s hd (List.mem_cons_self hd tl) hs)

/-- desk_parser_reset preserves well-formedness: the pushed item is stamped
with its own position and any registered menu is bounded. -/
theorem reset_wf (st : MenuIndex) (h : st.wf) : (st.desk_parser_reset).2.wf := by
  simp only [MenuIndex.desk_parser_reset]
  split
  · split
    · exact wfParts_insert_index (wfParts_append h _ rfl) _ st.items.length (by simp)
    · refine wfParts_append h _ ?_
      split
      · rfl
      · rfl
    · exact wfParts_append h _ rfl
  · exact h

/-- applyAssoc preserves well-formedness. -/
theorem applyAssoc_wf (st : MenuIndex) (a : Assoc) (h : st.wf) :
    (st.applyAssoc a).wf := by
  simp only [MenuIndex.applyAssoc]
  cases hl : List.lookup a.filename st.filename_index with
  | none => simp only [hl]; exact h
  | some idx =>
    simp only [hl]
    cases hg : st.items.get? idx with
    | none => simp only [hg]; exact h
    | some item =>
      simp only [hg]
      cases hdet : item.detail with
      | Entry ent =>
        simp only [hdet]
        by_cases hA : a.assoc_type = .Add
        · rw [if_pos hA]
          exact wfParts_set h idx _ item hg rfl
        · rw [if_neg hA]
          by_cases hR : a.assoc_type = .Remove
          · rw [if_pos hR]
            exact wfParts_set h idx _ item hg rfl
          · rw [if_neg hR]
            refine wfParts_insert_mime h a.mime ⟨some idx, []⟩ ?_ ?_
            · intro d hd
              injection hd with hd2
              rw [← hd2]
              exact h.2.2.2.2 (a.filename, idx) (lookup_mem _ _ _ hl)
            · intro x hx
              simp at hx
      | Directory => simp only [hdet]; exact h
      | Unknown => simp only [hdet]; exact h

/-- Registering the last arena position in the filename table preserves
well-formedness. -/
theorem wf_insert_lenm1 (s : MenuIndex) (hs : s.wf) (k : String) :
    wfParts s.index s.mime_assoc_index s.items
      (listInsert k (s.items.length - 1) s.filename_index) := by
  refine wfParts_insert_fidx hs k _ ?_
  have := hs.1
  omega

/-- scan_desktop_file preserves well-formedness. -/
theorem scan_desktop_wf (st : MenuIndex) (ext : String) (f : DesktopFileInput)
    (h : st.wf) : (st.scan_desktop_file ext f).wf := by
  simp only [MenuIndex.scan_desktop_file]
  split
  · exact wf_insert_lenm1
      ({ st with deskParser := (runDeskParser { st.deskParser with filename := f.stem } f.events) }).desk_parser_reset.2
      (reset_wf ({ st with deskParser := (runDeskParser { st.deskParser with filename := f.stem } f.events) }) h)
      (f.stem ++ "." ++ ext)
  · exact reset_wf ({ st with deskParser := (runDeskParser { st.deskParser with filename := f.stem } f.events) }) h

/-- scan_mimeapps preserves well-formedness. -/
theorem scan_mimeapps_wf (st : MenuIndex) (evs : List DEvent) (is_local : Bool)
    (h : st.wf) : (st.scan_mimeapps evs is_local).wf := by
  simp only [MenuIndex.scan_mimeapps]
  split
  · refine foldl_preserves MenuIndex.wf MenuIndex.applyAssoc
      (fun s a hp => applyAssoc_wf s a hp) _ _ ?_
    exact h
  · refine foldl_preserves MenuIndex.wf MenuIndex.applyAssoc
      (fun s a hp => applyAssoc_wf s a hp) _ _ ?_
    exact h

/-- scan_prefix_path preserves well-formedness. -/
theorem scan_prefix_wf (st : MenuIndex) (p : PrefixInput) (h : st.wf) :
    (st.scan_prefix_path p).wf := by
  simp only [MenuIndex.scan_prefix_path]
  refine foldl_preserves MenuIndex.wf
    (fun s f => MenuIndex.scan_desktop_file s "directory" f)
    (fun s f hp => scan_desktop_wf s "directory" f hp) _ _ ?_
  cases hm : p.mimeapps with
  | none =>
    simp only [hm]
    exact foldl_preserves MenuIndex.wf
      (fun s f => MenuIndex.scan_desktop_file s "desktop" f)
      (fun s f hp => scan_desktop_wf s "desktop" f hp) _ _ h
  | some evs =>
    simp only [hm]
    refine scan_mimeapps_wf _ evs p.is_local ?_
    exact foldl_preserves MenuIndex.wf
      (fun s f => MenuIndex.scan_desktop_file s "desktop" f)
      (fun s f hp => scan_desktop_wf s "desktop" f hp) _ _ h

/-- connectOne keeps the category map bounded when the connected item is
bounded. -/
theorem connectOne_bounds {n : Nat} (acc : List (String × Menu)) (item : MenuItem)
    (hacc : idxMapBounds acc n) (hidx : item.idx < n) :
    idxMapBounds (connectOne acc item) n := by
  simp only [connectOne]
  split
  · exact hacc
  · split
    · exact pushChild_bounds hacc "" item.idx hidx
    · have hstep : ∀ (acc2 : List (String × Menu) × Bool) (key : String),
          idxMapBounds acc2.1 n →
          idxMapBounds ((if key = "" then acc2 else
            match List.lookup key acc2.1 with
            | some _ => (pushChild key item.idx acc2.1, true)
            | none => acc2)).1 n := by
        intro acc2 key hp
        by_cases hk : key = ""
        · rw [if_pos hk]; exact hp
        · rw [if_neg hk]
          cases hlk : List.lookup key acc2.1 with
          | some mu => simp only [hlk]; exact pushChild_bounds hp key item.idx hidx
          | none => simp only [hlk]; exact hp
      have hfold := foldl_preserves _ _ hstep (item.categories.splitOn ";")
        (acc, false) hacc
      split
      · exact pushChild_bounds hfold "__other_apps" item.idx hidx
      · exact hfold

/-- The connect phase preserves well-formedness. -/
theorem connect_wf (st : MenuIndex) (h : st.wf) : st.connect.wf := by
  obtain ⟨hpos, hitems, hindex, hmime, hfidx⟩ := h
  refine ⟨hpos, hitems, ?_, hmime, hfidx⟩
  exact foldl_preserves_mem (fun acc => idxMapBounds acc st.items.length) connectOne
    st.items (fun acc item hmem hp => connectOne_bounds acc item hp (hitems item hmem))
    st.index hindex

/-- buildMimeOne keeps the MIME table bounded. -/
theorem buildMimeOne_bounds (items : List MenuItem)
    (m : List (String × MenuAssociation)) (i : Nat)
    (hm : mimeBounds m items.length) :
    mimeBounds (buildMimeOne items m i) items.length := by
  simp only [buildMimeOne]
  cases hg : items.get? i with
  | none => exact hm
  | some item =>
    simp only [hg]
    cases hdet : item.detail with
    | Entry ent =>
      simp only [hdet]
      have hi : i < items.length := get?_lt_length items i item hg
      refine foldl_preserves (fun m2 => mimeBounds m2 items.length)
        (fun m2 mime => match List.lookup mime m2 with
          | some assoc => listInsert mime { assoc with all := assoc.all ++ [i] } m2
          | none => listInsert mime ⟨none, [i]⟩ m2)
        ?_ ent.mimes m hm
      intro m2 mime hp
      cases hlk : List.lookup mime m2 with
      | some assoc =>
        simp only [hlk]
        intro p hp2
        rcases mem_listInsert mime { assoc with all := assoc.all ++ [i] } m2 p hp2 with
          h1 | h2
        · rw [h1]
          refine ⟨(hp (mime, assoc) (lookup_mem _ _ _ hlk)).1, ?_⟩
          intro x hx
          rcases List.mem_append.mp hx with h3 | h3
          · exact (hp (mime, assoc) (lookup_mem _ _ _ hlk)).2 x h3
          · have : x = i := by simpa using h3
            rw [this]; exact hi
        · exact hp p h2
      | none =>
        simp only [hlk]
        intro p hp2
        rcases mem_listInsert mime ⟨none, [i]⟩ m2 p hp2 with h1 | h2
        · rw [h1]
          refine ⟨(by intro d hd; cases hd), ?_⟩
          intro x hx
          have : x = i := by simpa using hx
          rw [this]; exact hi
        · exact hp p h2
    | Directory => simp only [hdet]; exact hm
    | Unknown => simp only [hdet]; exact hm

/-- The MIME-rebuild phase preserves well-formedness. -/
theorem build_wf (st : MenuIndex) (h : st.wf) : st.build_mime_assoc.wf := by
  obtain ⟨hpos, hitems, hindex, hmime, hfidx⟩ := h
  refine ⟨hpos, hitems, hindex, ?_, hfidx⟩
  exact foldl_preserves (fun m => mimeBounds m st.items.length) (buildMimeOne st.items)
    (fun m i hp => buildMimeOne_bounds st.items m i hp) (List.range st.items.length)
    st.mime_assoc_index hmime

/-- scan_all preserves well-formedness. -/
theorem scan_all_wf (st : MenuIndex) (inputs : List PrefixInput) (h : st.wf) :
    (st.scan_all inputs).wf := by
  simp only [MenuIndex.scan_all]
  refine build_wf _ (connect_wf _ ?_)
  refine foldl_preserves MenuIndex.wf MenuIndex.scan_prefix_path
    (fun s p hp => scan_prefix_wf s p hp) _ _ ?_
  exact reset_wf st h

/-- A fresh index is well-formed. -/
theorem new_wf (locale : Option String) : (MenuIndex.new locale).wf := by
  refine ⟨Nat.one_pos, ?_, ?_, ?_, ?_⟩
  · intro item him
    have him2 : item ∈ [MenuItem.root] := him
    rw [List.mem_singleton.mp him2]
    exact Nat.one_pos
  · intro p hp
    have hp2 : p ∈ [("", (⟨0, []⟩ : Menu))] := hp
    rw [List.mem_singleton.mp hp2]
    exact ⟨Nat.one_pos, fun c hc => absurd hc (List.not_mem_nil c)⟩
  · intro p hp
    exact absurd hp (List.not_mem_nil p)
  · intro p hp
    exact absurd hp (List.not_mem_nil p)

/-- change_default_assoc preserves well-formedness (its index argument is
valid whenever the call returns at all). -/
theorem change_default_wf (st : MenuIndex) (mime : String) (idx : Nat)
    (st' : MenuIndex) (h : st.wf)
    (heq : st.change_default_assoc mime idx = some st') : st'.wf := by
  simp only [MenuIndex.change_default_assoc] at heq
  cases hg : st.items.get? idx with
  | none => simp only [hg] at heq; cases heq
  | some item =>
    simp only [hg] at heq
    have hi : idx < st.items.length := get?_lt_length _ _ _ hg
    cases hlk : List.lookup mime st.mime_assoc_index with
    | none =>
      simp only [hlk] at heq
      injection heq with hst
      rw [← hst]
      have hw := wfParts_insert_mime h mime ⟨some idx, []⟩
        (by intro d hd; injection hd with h2; rw [← h2]; exact hi)
        (by intro x hx; simp at hx)
      split
      · exact hw
      · exact hw
    | some assoc =>
      simp only [hlk] at heq
      injection heq with hst
      rw [← hst]
      have hw := wfParts_insert_mime h mime { assoc with default := some idx }
        (by intro d hd; injection hd with h2; rw [← h2]; exact hi)
        (by intro x hx; exact (h.2.2.2.1 (mime, assoc) (lookup_mem _ _ _ hlk)).2 x hx)
      split
      · exact hw
      · exact hw

/-! ## Theorems for claim C10 -/

/-- C10: after scan_all from a fresh index every stored item index — each
Menu's item_idx and children entries, each association's default and
candidate entries, and each filename-table entry — is a valid arena position
strictly below items.length, and this well-formedness is preserved by
change_default_assoc whenever the call's index is itself valid (whenever the
access `self.items[idx]` does not panic, i.e. the embedded call returns
`some`). -/
theorem c10_stored_indices_valid :
    (∀ locale inputs, ((MenuIndex.new locale).scan_all inputs).wf) ∧
    (∀ (st : MenuIndex) (mime : String) (idx : Nat) (st' : MenuIndex), st.wf →
      st.change_default_assoc mime idx = some st' → st'.wf) := by
  constructor
  · intro locale inputs
    exact scan_all_wf (MenuIndex.new locale) inputs (new_wf locale)
  · intro st mime idx st' h heq
    exact change_default_wf st mime idx st' h heq

/-- C10 (witness): the built empty state is well-formed, and a concrete
change_default_assoc call on a well-formed state keeps it well-formed. -/
theorem c10_stored_indices_valid_witness :
    ((MenuIndex.new none).scan_all []).wf ∧
      (∃ st', priorDefaultState.change_default_assoc "text/plain" 2 = some st' ∧
        st'.wf) := by
  constructor
  · exact c10_stored_indices_valid.1 none []
  · cases hEq : priorDefaultState.change_default_assoc "text/plain" 2 with
    | none => exact absurd hEq (by decide)
    | some st' =>
      exact ⟨st', rfl,
        c10_stored_indices_valid.2 priorDefaultState "text/plain" 2 st' (by decide) hEq⟩

/-! ## Theorems for claim C4 -/

/-- Helper: one buildMimeOne step keeps a key's default unchanged. -/
theorem buildMimeOne_default_pres (items : List MenuItem) (i : Nat)
    (mime : String) (d0 : Option Nat) :
    ∀ m, (∃ a', List.lookup mime m = some a' ∧ a'.default = d0) →
      ∃ a', List.lookup mime (buildMimeOne items m i) = some a' ∧ a'.default = d0 := by
  intro m hp
  simp only [buildMimeOne]
  cases hg : items.get? i with
  | none => exact hp
  | some item =>
    simp only [hg]
    cases hdet : item.detail with
    | Entry ent =>
      simp only [hdet]
      refine foldl_preserves
        (fun m2 => ∃ a', List.lookup mime m2 = some a' ∧ a'.default = d0)
        (fun m2 mime2 => match List.lookup mime2 m2 with
          | some assoc => listInsert mime2 { assoc with all := assoc.all ++ [i] } m2
          | none => listInsert mime2 ⟨none, [i]⟩ m2)
        ?_ ent.mimes m hp
      intro m2 mime2 hp2
      obtain ⟨a', ha', hd'⟩ := hp2
      by_cases heq : mime2 = mime
      · subst heq
        simp only [ha']
        exact ⟨{ a' with all := a'.all ++ [i] }, lookup_listInsert_self _ _ _, hd'⟩
      · cases hlk : List.lookup mime2 m2 with
        | some assoc =>
          simp only [hlk]
          refine ⟨a', ?_, hd'⟩
          rw [lookup_listInsert_ne mime2 mime _ (fun hh => heq hh.symm)]
          exact ha'
        | none =>
          simp only [hlk]
          refine ⟨a', ?_, hd'⟩
          rw [lookup_listInsert_ne mime2 mime _ (fun hh => heq hh.symm)]
          exact ha'
    | Directory => simp only [hdet]; exact hp
    | Unknown => simp only [hdet]; exact hp

/-- Helper: one buildMimeOne step keeps an accumulated candidate present. -/
theorem buildMimeOne_mem_pres (items : List MenuItem) (j : Nat)
    (mime : String) (i : Nat) :
    ∀ m, (∃ a', List.lookup mime m = some a' ∧ i ∈ a'.all) →
      ∃ a', List.lookup mime (buildMimeOne items m j) = some a' ∧ i ∈ a'.all := by
  intro m hp
  simp only [buildMimeOne]
  cases hg : items.get? j with
  | none => exact hp
  | some item =>
    simp only [hg]
    cases hdet : item.detail with
    | Entry ent =>
      simp only [hdet]
      refine foldl_preserves
        (fun m2 => ∃ a', List.lookup mime m2 = some a' ∧ i ∈ a'.all)
        (fun m2 mime2 => match List.lookup mime2 m2 with
          | some assoc => listInsert mime2 { assoc with all := assoc.all ++ [j] } m2
          | none => listInsert mime2 ⟨none, [j]⟩ m2)
        ?_ ent.mimes m hp
      intro m2 mime2 hp2
      obtain ⟨a', ha', hmem'⟩ := hp2
      by_cases heq : mime2 = mime
      · subst heq
        simp only [ha']
        exact ⟨{ a' with all := a'.all ++ [j] }, lookup_listInsert_self _ _ _,
          List.mem_append_left _ hmem'⟩
      · cases hlk : List.lookup mime2 m2 with
        | some assoc =>
          simp only [hlk]
          refine ⟨a', ?_, hmem'⟩
          rw [lookup_listInsert_ne mime2 mime _ (fun hh => heq hh.symm)]
          exact ha'
        | none =>
          simp only [hlk]
          refine ⟨a', ?_, hmem'⟩
          rw [lookup_listInsert_ne mime2 mime _ (fun hh => heq hh.symm)]
          exact ha'
    | Directory => simp only [hdet]; exact hp
    | Unknown => simp only [hdet]; exact hp

/-- Helper: processing arena position i itself establishes i as a candidate
for each of its mimes. -/
theorem buildMimeOne_establishes (items : List MenuItem) (i : Nat)
    (item : MenuItem) (ent : MenuItemDetailEntry) (mime : String)
    (hg : items.get? i = some item) (hdet : item.detail = .Entry ent)
    (hmime : mime ∈ ent.mimes) :
    ∀ m, ∃ a', List.lookup mime (buildMimeOne items m i) = some a' ∧ i ∈ a'.all := by
  intro m
  simp only [buildMimeOne, hg, hdet]
  refine foldl_establish
    (fun m2 => ∃ a', List.lookup mime m2 = some a' ∧ i ∈ a'.all)
    (fun m2 mime2 => match List.lookup mime2 m2 with
      | some assoc => listInsert mime2 { assoc with all := assoc.all ++ [i] } m2
      | none => listInsert mime2 ⟨none, [i]⟩ m2)
    mime ?_ ?_ ent.mimes m hmime
  · intro m2
    cases hlk : List.lookup mime m2 with
    | some assoc =>
      simp only [hlk]
      exact ⟨{ assoc with all := assoc.all ++ [i] }, lookup_listInsert_self _ _ _,
        List.mem_append_right _ (List.mem_singleton.mpr rfl)⟩
    | none =>
      simp only [hlk]
      exact ⟨⟨none, [i]⟩, lookup_listInsert_self _ _ _, List.mem_singleton.mpr rfl⟩
  · intro m2 mime2 hp2
    obtain ⟨a', ha', hmem'⟩ := hp2
    by_cases heq : mime2 = mime
    · subst heq
      simp only [ha']
      exact ⟨{ a' with all := a'.all ++ [i] }, lookup_listInsert_self _ _ _,
        List.mem_append_left _ hmem'⟩
    · cases hlk : List.lookup mime2 m2 with
      | some assoc =>
        simp only [hlk]
        refine ⟨a', ?_, hmem'⟩
        rw [lookup_listInsert_ne mime2 mime _ (fun hh => heq hh.symm)]
        exact ha'
      | none =>
        simp only [hlk]
        refine ⟨a', ?_, hmem'⟩
        rw [lookup_listInsert_ne mime2 mime _ (fun hh => heq hh.symm)]
        exact ha'

/-- C4: each applied mimeapps.list record transforms the state as claimed —
(a) Add appends the MIME type to the resolved entry's mime list, (b) Remove
deletes the first matching MIME type from that list, (c) Default overwrites
the type's association with default = the resolved item, unconditionally
replacing whatever was there (so the last applied root wins); and the
post-scan rebuild (d) never overwrites a default already present in the
table while (e) accumulating every entry's final mime list into that type's
candidate set. -/
theorem c4_assoc_records_and_rebuild :
    (∀ (st : MenuIndex) (a : Assoc) (idx : Nat) (item : MenuItem)
        (ent : MenuItemDetailEntry),
      a.assoc_type = .Add →
      List.lookup a.filename st.filename_index = some idx →
      st.items.get? idx = some item → item.detail = .Entry ent →
      (st.applyAssoc a).items.get? idx =
        some { item with detail := .Entry { ent with mimes := ent.mimes ++ [a.mime] } }) ∧
    (∀ (st : MenuIndex) (a : Assoc) (idx : Nat) (item : MenuItem)
        (ent : MenuItemDetailEntry),
      a.assoc_type = .Remove →
      List.lookup a.filename st.filename_index = some idx →
      st.items.get? idx = some item → item.detail = .Entry ent →
      (st.applyAssoc a).items.get? idx =
        some { item with detail := .Entry { ent with mimes := ent.mimes.erase a.mime } }) ∧
    (∀ (st : MenuIndex) (a : Assoc) (idx : Nat) (item : MenuItem)
        (ent : MenuItemDetailEntry),
      a.assoc_type = .Default →
      List.lookup a.filename st.filename_index = some idx →
      st.items.get? idx = some item → item.detail = .Entry ent →
      List.lookup a.mime (st.applyAssoc a).mime_assoc_index =
        some ⟨some idx, []⟩) ∧
    (∀ (st : MenuIndex) (mime : String) (assoc : MenuAssociation),
      List.lookup mime st.mime_assoc_index = some assoc →
      ∃ assoc', List.lookup mime st.build_mime_assoc.mime_assoc_index = some assoc' ∧
        assoc'.default = assoc.default) ∧
    (∀ (st : MenuIndex) (i : Nat) (item : MenuItem) (ent : MenuItemDetailEntry)
        (mime : String),
      st.items.get? i = some item → item.detail = .Entry ent → mime ∈ ent.mimes →
      ∃ assoc', List.lookup mime st.build_mime_assoc.mime_assoc_index = some assoc' ∧
        i ∈ assoc'.all) := by
  refine ⟨?_, ?_, ?_, ?_, ?_⟩
  · intro st a idx item ent hA hl hg hdet
    simp only [MenuIndex.applyAssoc, hl, hg, hdet]
    rw [if_pos hA]
    exact get?_set_self st.items idx _ (get?_lt_length _ _ _ hg)
  · intro st a idx item ent hR hl hg hdet
    simp only [MenuIndex.applyAssoc, hl, hg, hdet]
    have hA : ¬ (a.assoc_type = .Add) := by rw [hR]; decide
    rw [if_neg hA, if_pos hR]
    exact get?_set_self st.items idx _ (get?_lt_length _ _ _ hg)
  · intro st a idx item ent hD hl hg hdet
    simp only [MenuIndex.applyAssoc, hl, hg, hdet]
    have hA : ¬ (a.assoc_type = .Add) := by rw [hD]; decide
    have hR : ¬ (a.assoc_type = .Remove) := by rw [hD]; decide
    rw [if_neg hA, if_neg hR]
    exact lookup_listInsert_self a.mime ⟨some idx, []⟩ st.mime_assoc_index
  · intro st mime assoc hlk
    simp only [MenuIndex.build_mime_assoc]
    exact foldl_preserves
      (fun m => ∃ a', List.lookup mime m = some a' ∧ a'.default = assoc.default)
      (buildMimeOne st.items)
      (fun m i hp => buildMimeOne_default_pres st.items i mime assoc.default m hp)
      (List.range st.items.length) st.mime_assoc_index ⟨assoc, hlk, rfl⟩
  · intro st i item ent mime hg hdet hmime
    simp only [MenuIndex.build_mime_assoc]
    exact foldl_establish
      (fun m => ∃ a', List.lookup mime m = some a' ∧ i ∈ a'.all)
      (buildMimeOne st.items) i
      (fun m => buildMimeOne_establishes st.items i item ent mime hg hdet hmime m)
      (fun m j hp => buildMimeOne_mem_pres st.items j mime i m hp)
      (List.range st.items.length) st.mime_assoc_index
      (List.mem_range.mpr (get?_lt_length _ _ _ hg))

/-- C4 (witness): on the one-entry state, Add appends `text/html`, Default
then overwrites the default to item 1, and the rebuild registers item 1 as a
candidate for `text/plain` (with a pre-seeded default left untouched in the
priorDefaultState case). -/
theorem c4_assoc_records_and_rebuild_witness :
    (miniState.applyAssoc ⟨"mini.desktop", "text/html", .Add⟩).items.get? 1 =
      some { miniItem with detail :=
        MenuItemDetail.Entry ⟨"mini", "mini", false, ["text/plain", "text/html"]⟩ } ∧
    List.lookup "text/plain"
        (miniState.applyAssoc ⟨"mini.desktop", "text/plain", .Default⟩).mime_assoc_index =
      some ⟨some 1, []⟩ ∧
    (∃ assoc', List.lookup "text/plain"
        priorDefaultState.build_mime_assoc.mime_assoc_index = some assoc' ∧
      assoc'.default = some 1) ∧
    (∃ assoc', List.lookup "text/plain"
        miniState.build_mime_assoc.mime_assoc_index = some assoc' ∧
      1 ∈ assoc'.all) := by
  refine ⟨?_, ?_, ?_, ?_⟩
  · exact c4_assoc_records_and_rebuild.1 miniState ⟨"mini.desktop", "text/html", .Add⟩
      1 miniItem ⟨"mini", "mini", false, ["text/plain"]⟩ rfl (by decide) (by decide) rfl
  · exact c4_assoc_records_and_rebuild.2.2.1 miniState
      ⟨"mini.desktop", "text/plain", .Default⟩ 1 miniItem
      ⟨"mini", "mini", false, ["text/plain"]⟩ rfl (by decide) (by decide) rfl
  · exact c4_assoc_records_and_rebuild.2.2.2.1 priorDefaultState "text/plain"
      ⟨some 1, [1, 2]⟩ (by decide)
  · exact c4_assoc_records_and_rebuild.2.2.2.2 miniState 1 miniItem
      ⟨"mini", "mini", false, ["text/plain"]⟩ "text/plain" (by decide) rfl
      (by decide)

/-! ## Tokenizer stepping lemmas for claim C8 -/

/-- skip_whitespace is the identity on a slice that does not start with a
space. -/
theorem skip_whitespace_cons (c : Char) (r : List Char) (hc : ¬ c = ' ') :
    skip_whitespace (c :: r) = c :: r := by
  simp only [skip_whitespace, List.all_cons]
  rw [if_neg ?_, List.dropWhile_cons]
  · rw [if_neg ?_]
    simp [hc]
  · simp [hc]

/-- One parse iteration over a blank line consumes exactly the newline. -/
theorem parseGo_newline (fuel : Nat) (rest : List Char) :
    parseGo (fuel + 1) ('\n' :: rest) = parseGo fuel rest := by
  simp [parseGo, skip_whitespace_cons '\n' rest (by decide)]

/-- find_next_char finds the first occurrence of `x` past a prefix free of
`x` and newlines, exactly as the source scan does. -/
theorem find_next_char_append (x : Char) :
    ∀ (pre post : List Char), (∀ c ∈ pre, c ≠ x ∧ c ≠ '\n') →
      find_next_char x (pre ++ x :: post) = some (x :: post, pre.length) := by
  intro pre
  induction pre with
  | nil =>
    intro post _
    simp [find_next_char]
  | cons c pre2 ih =>
    intro post hpre
    have hc := hpre c (List.mem_cons_self c pre2)
    simp only [List.cons_append, find_next_char]
    rw [if_neg hc.1, if_neg hc.2]
    have hrec := ih post (fun c2 hc2 => hpre c2 (List.mem_cons_of_mem c hc2))
    simp [hrec]

/-- Taking a left operand's length from an append returns that operand. -/
theorem take_len_append {α : Type} : ∀ (l l' : List α), (l ++ l').take l.length = l := by
  intro l
  induction l with
  | nil => intro l'; rfl
  | cons c l2 ih =>
    intro l'
    simp only [List.cons_append, List.length_cons, List.take_succ_cons]
    rw [ih l']

/-- One parse iteration over a section-header line emits the section event
and continues at the trailing newline. -/
theorem parseGo_section_line (fuel : Nat) (name rest : List Char)
    (hname : ∀ c ∈ name, c ≠ ']' ∧ c ≠ '\n') :
    parseGo (fuel + 1) ('[' :: (name ++ ']' :: '\n' :: rest)) =
      (parseGo fuel ('\n' :: rest)).map (fun evs => DEvent.sec name :: evs) := by
  simp [parseGo, skip_whitespace_cons '[' (name ++ ']' :: '\n' :: rest) (by decide),
    find_next_char_append ']' name ('\n' :: rest) hname, take_len_append]

/-- One parse iteration over a `mime=filename` line emits the key and value
events and continues past the trailing newline. -/
theorem parseGo_kv_line (fuel : Nat) (mime fname rest : List Char)
    (hmime : ∀ c ∈ mime, c ≠ '=' ∧ c ≠ '\n')
    (hsp : mime.head? ≠ some ' ') (hhash : mime.head? ≠ some '#')
    (hbr : mime.head? ≠ some '[')
    (hfname : ∀ c ∈ fname, c ≠ '\n') :
    parseGo (fuel + 1) (mime ++ '=' :: (fname ++ '\n' :: rest)) =
      (parseGo fuel rest).map
        (fun evs => DEvent.key mime :: DEvent.value fname :: evs) := by
  have hfn : ∀ c ∈ fname, c ≠ '\n' ∧ c ≠ '\n' := fun c hc => ⟨hfname c hc, hfname c hc⟩
  cases mime with
  | nil =>
    have h0 : find_next_char '=' ('=' :: (fname ++ '\n' :: rest)) =
        some ('=' :: (fname ++ '\n' :: rest), 0) := by
      simpa using find_next_char_append '=' [] (fname ++ '\n' :: rest)
        (by intro c hc; cases hc)
    simp [parseGo, skip_whitespace_cons '=' (fname ++ '\n' :: rest) (by decide),
      h0, find_next_char_append '\n' fname rest hfn, take_len_append]
  | cons c0 mime2 =>
    have hc0 := hmime c0 (List.mem_cons_self c0 mime2)
    have hc0sp : ¬ c0 = ' ' := by
      intro hh; exact hsp (by rw [List.head?_cons, hh])
    have hc0hash : ¬ c0 = '#' := by
      intro hh; exact hhash (by rw [List.head?_cons, hh])
    have hc0br : ¬ c0 = '[' := by
      intro hh; exact hbr (by rw [List.head?_cons, hh])
    have hskip := skip_whitespace_cons c0 (mime2 ++ '=' :: (fname ++ '\n' :: rest)) hc0sp
    have hfind := find_next_char_append '=' (c0 :: mime2) (fname ++ '\n' :: rest) hmime
    have htake := take_len_append (c0 :: mime2) ('=' :: (fname ++ '\n' :: rest))
    simp only [List.cons_append, List.length_cons] at hfind htake
    simp [parseGo, hskip, hc0.1, hc0.2, hc0sp, hc0hash, hc0br, hfind, htake,
      find_next_char_append '\n' fname rest hfn, take_len_append]

/-! ## Association-machine lemmas and the C8 round trip -/

/-- Splitting a separator-free slice yields that single piece. -/
theorem splitOnChar_no_sep (sep : Char) :
    ∀ l, (∀ c ∈ l, c ≠ sep) → splitOnChar sep l = [l] := by
  intro l
  induction l with
  | nil => intro _; rfl
  | cons c r ih =>
    intro h
    simp only [splitOnChar]
    rw [if_neg (h c (List.mem_cons_self c r)), ih (fun c2 hc2 => h c2 (List.mem_cons_of_mem c hc2))]

/-- Reading back a written section header restores exactly that kind. -/
theorem on_section_display (st : MenuIndexAssocParser) (k : AssocType) :
    st.on_section k.display.data = { st with cur_assoc := k } := by
  cases k <;> rfl

/-- Reading back a single `;`-free, nonempty filename value appends exactly
one record. -/
theorem on_value_single (st : MenuIndexAssocParser) (fname : List Char)
    (hne : fname ≠ []) (hsemi : ∀ c ∈ fname, c ≠ ';') :
    st.on_value fname =
      { st with assocs := st.assocs ++ [⟨⟨fname⟩, st.cur_mime, st.cur_assoc⟩] } := by
  simp only [MenuIndexAssocParser.on_value]
  rw [splitOnChar_no_sep ';' fname hsemi]
  have hlen : ¬ (fname.length = 0) := by
    cases fname with
    | nil => exact absurd rfl hne
    | cons _ _ => simp
  simp [List.filterMap_cons, hne]

/-- Section headers never contain `]` or a newline. -/
theorem display_clean (k : AssocType) :
    ∀ c ∈ k.display.data, c ≠ ']' ∧ c ≠ '\n' := by
  cases k <;> decide

/-- The generalized round trip: parsing the bytes written for a record list
and folding the association machine over the resulting events appends
exactly that list, for any starting section state in sync with the
machine. -/
theorem roundtrip_go :
    ∀ (assocs : List Assoc), (∀ a ∈ assocs, a.serializable) →
      ∀ (cur_sec : Option AssocType) (st : MenuIndexAssocParser) (fuel : Nat),
        (writeAssocsGo cur_sec assocs).length < fuel →
        (∀ k, cur_sec = some k → st.cur_assoc = k) →
        ∃ evs, parseGo fuel (writeAssocsGo cur_sec assocs) = some evs ∧
          (runAssocParser st evs).assocs = st.assocs ++ assocs := by
  intro assocs
  induction assocs with
  | nil =>
    intro _ cur_sec st fuel hfuel _
    cases fuel with
    | zero => simp [writeAssocsGo] at hfuel
    | succ f =>
      refine ⟨[], ?_, ?_⟩
      · simp [writeAssocsGo, parseGo]
      · simp [runAssocParser]
  | cons a rest ih =>
    intro hser cur_sec st fuel hfuel hsync
    have ha := hser a (List.mem_cons_self a rest)
    have hrest : ∀ a2 ∈ rest, a2.serializable :=
      fun a2 h2 => hser a2 (List.mem_cons_of_mem a h2)
    obtain ⟨hm, hsp, hhash, hbr, hf, hfne⟩ := ha
    by_cases hsec : cur_sec = some a.assoc_type
    · -- section unchanged: no header line
      have hw : writeAssocsGo cur_sec (a :: rest) =
          a.mime.data ++ '=' :: (a.filename.data ++ '\n' ::
            writeAssocsGo (some a.assoc_type) rest) := by
        simp only [writeAssocsGo]
        rw [if_neg (by simp [hsec])]
        simp [List.append_assoc]
      rw [hw] at hfuel ⊢
      obtain ⟨f, rfl⟩ : ∃ f, fuel = f + 1 := ⟨fuel - 1, by omega⟩
      rw [parseGo_kv_line f a.mime.data a.filename.data _
        (fun c hc => ⟨(hm c hc).2, (hm c hc).1⟩) hsp hhash hbr
        (fun c hc => (hf c hc).1)]
      have hfuel2 : (writeAssocsGo (some a.assoc_type) rest).length < f := by
        simp [List.length_append] at hfuel
        omega
      have hsync2 : ∀ k, (some a.assoc_type : Option AssocType) = some k →
          ((st.on_key a.mime.data).on_value a.filename.data).cur_assoc = k := by
        intro k hk
        injection hk with hk2
        rw [← hk2]
        exact hsync a.assoc_type hsec
      obtain ⟨evs2, hp2, hr2⟩ := ih hrest (some a.assoc_type)
        ((st.on_key a.mime.data).on_value a.filename.data) f hfuel2 hsync2
      refine ⟨DEvent.key a.mime.data :: DEvent.value a.filename.data :: evs2, ?_, ?_⟩
      · rw [hp2]
        rfl
      · simp only [runAssocParser]
        have hov := on_value_single (st.on_key a.mime.data) a.filename.data hfne
          (fun c hc => (hf c hc).2)
        rw [hov] at hr2 ⊢
        rw [hr2]
        have hcur : st.cur_assoc = a.assoc_type := hsync a.assoc_type hsec
        show (st.assocs ++ [(⟨a.filename, a.mime, st.cur_assoc⟩ : Assoc)]) ++ rest =
          st.assocs ++ a :: rest
        rw [hcur]
        show (st.assocs ++ [a]) ++ rest = st.assocs ++ a :: rest
        simp
    · -- section change: header line first
      have hw : writeAssocsGo cur_sec (a :: rest) =
          '[' :: (a.assoc_type.display.data ++ ']' :: '\n' ::
            (a.mime.data ++ '=' :: (a.filename.data ++ '\n' ::
              writeAssocsGo (some a.assoc_type) rest))) := by
        simp only [writeAssocsGo]
        rw [if_pos (by simp [hsec])]
        simp [List.append_assoc]
      rw [hw] at hfuel ⊢
      obtain ⟨f, rfl⟩ : ∃ f, fuel = f + 3 := ⟨fuel - 3, by simp at hfuel; omega⟩
      have hsection := parseGo_section_line (f + 2) a.assoc_type.display.data
        (a.mime.data ++ '=' :: (a.filename.data ++ '\n' ::
          writeAssocsGo (some a.assoc_type) rest))
        (display_clean a.assoc_type)
      rw [hsection]
      rw [parseGo_newline (f + 1)]
      rw [parseGo_kv_line f a.mime.data a.filename.data _
        (fun c hc => ⟨(hm c hc).2, (hm c hc).1⟩) hsp hhash hbr
        (fun c hc => (hf c hc).1)]
      have hfuel2 : (writeAssocsGo (some a.assoc_type) rest).length < f := by
        simp [List.length_append] at hfuel
        omega
      have hsync2 : ∀ k, (some a.assoc_type : Option AssocType) = some k →
          (((({ st with cur_assoc := a.assoc_type } : MenuIndexAssocParser).on_key
            a.mime.data)).on_value a.filename.data).cur_assoc = k := by
        intro k hk
        cases hk
        rfl
      obtain ⟨evs2, hp2, hr2⟩ := ih hrest (some a.assoc_type)
        ((({ st with cur_assoc := a.assoc_type } : MenuIndexAssocParser).on_key
          a.mime.data).on_value a.filename.data) f hfuel2 hsync2
      refine ⟨DEvent.sec a.assoc_type.display.data :: DEvent.key a.mime.data ::
        DEvent.value a.filename.data :: evs2, ?_, ?_⟩
      · rw [hp2]
        rfl
      · simp only [runAssocParser]
        rw [on_section_display st a.assoc_type]
        have hov := on_value_single
          (({ st with cur_assoc := a.assoc_type } : MenuIndexAssocParser).on_key
            a.mime.data) a.filename.data hfne (fun c hc => (hf c hc).2)
        rw [hov] at hr2 ⊢
        rw [hr2]
        show (st.assocs ++ [(⟨a.filename, a.mime, a.assoc_type⟩ : Assoc)]) ++ rest =
          st.assocs ++ a :: rest
        show (st.assocs ++ [a]) ++ rest = st.assocs ++ a :: rest
        simp

/-- C8: serializing the retained local association records with
write_default_assoc and re-reading the produced bytes through
DesktopFile::parse and the association machine reproduces exactly the same
record list (hence the same (filename, mime, kind) multiset), for every list
of serializable records. -/
theorem c8_write_read_roundtrip (assocs : List Assoc)
    (h : ∀ a ∈ assocs, a.serializable) :
    ∃ evs, DesktopFile.parse (MenuIndex.write_default_assoc assocs) = some evs ∧
      (runAssocParser ⟨"", .Default, []⟩ evs).assocs = assocs := by
  obtain ⟨evs, hp, hr⟩ := roundtrip_go assocs h none ⟨"", .Default, []⟩
    ((writeAssocsGo none assocs).length + 1) (by omega)
    (by intro k hk; cases hk)
  refine ⟨evs, hp, ?_⟩
  simpa using hr

/-- C8 (witness): a concrete two-kind record list survives the write/parse
round trip verbatim. -/
theorem c8_write_read_roundtrip_witness :
    ∃ evs, DesktopFile.parse (MenuIndex.write_default_assoc
        [⟨"aedit.desktop", "text/plain", .Default⟩,
         ⟨"bedit.desktop", "image/png", .Add⟩]) = some evs ∧
      (runAssocParser ⟨"", .Default, []⟩ evs).assocs =
        [⟨"aedit.desktop", "text/plain", .Default⟩,
         ⟨"bedit.desktop", "image/png", .Add⟩] :=
  c8_write_read_roundtrip
    [⟨"aedit.desktop", "text/plain", .Default⟩,
     ⟨"bedit.desktop", "image/png", .Add⟩]
    (by decide)
